import Mathlib

/-!
Verification development for the nested-attribute model layer and the
JSOG-style reference-graph decoder of this repository.

The embedding models the JavaScript value world shallowly:

* primitive values (`undefined`, `null`, booleans, integer numbers, strings)
  are immutable `JsVal`s;
* objects and arrays live in an explicit `Heap` and are referenced by
  address, so that object identity, in-place mutation and aliasing are
  expressible (several spec properties are about identity);
* thrown `TypeError`s (property access on `null`/`undefined`, property
  assignment to primitives under strict mode) are modelled as an explicit
  error outcome carrying the state at the throw site;
* the decoder is defined with a fuel parameter because its input may be a
  cyclic heap structure (e.g. its own output); `none` models a computation
  that does not finish within the given recursion depth.

Floating point numbers and function values are outside the modelled value
universe: none of the verified properties involve them, and the repository
code never stores functions in attribute bags nor decodes them.
-/

/-- A heap address. -/
abbrev Addr := Nat

/-- JavaScript values: primitives, plus references to heap cells. -/
inductive JsVal where
  | undef
  | null
  | bool (b : Bool)
  | num (n : Int)
  | str (s : String)
  | addr (a : Addr)
deriving DecidableEq, Repr

/-- A heap cell: a plain object (insertion-ordered own enumerable fields)
or an array. Arrays carry their elements plus non-index (expando) string
properties, since JS arrays are objects; sparse arrays are represented by
padding with `undefined`, which is observationally equivalent for every
operation the repository performs. -/
inductive JsCell where
  | obj (fields : List (String × JsVal))
  | arr (elems : List JsVal) (props : List (String × JsVal))
deriving DecidableEq, Repr

/-- The heap: an association list from address to cell, plus the next
fresh address. -/
structure Heap where
  cells : List (Addr × JsCell)
  next : Addr
deriving DecidableEq, Repr

/-- Read the cell at an address. -/
def Heap.read (h : Heap) (a : Addr) : Option JsCell :=
  (h.cells.find? (fun p => p.1 == a)).map (·.2)

/-- Overwrite the cell at an address (the address is expected to be
allocated; a write to an unallocated address just stores a cell there,
which never happens in the verified code paths). -/
def Heap.write (h : Heap) (a : Addr) (c : JsCell) : Heap :=
  { cells := (a, c) :: h.cells.eraseP (fun p => p.1 == a), next := h.next }

/-- Allocate a fresh cell, returning its address. -/
def Heap.alloc (h : Heap) (c : JsCell) : Addr × Heap :=
  (h.next, { cells := (h.next, c) :: h.cells, next := h.next + 1 })

/-- The empty heap. -/
def Heap.empty : Heap := { cells := [], next := 0 }

/-- First-match lookup in an object's field list (JS own-property read). -/
def fieldsGet (fields : List (String × JsVal)) (k : String) : Option JsVal :=
  (fields.find? (fun p => p.1 == k)).map (·.2)

/-- JS property write on an object's field list: an existing key keeps its
position, a new key is appended (JS insertion order). -/
def fieldsSet (fields : List (String × JsVal)) (k : String) (v : JsVal) :
    List (String × JsVal) :=
  match fields with
  | [] => [(k, v)]
  | (k', v') :: rest =>
    if k' = k then (k', v) :: rest else (k', v') :: fieldsSet rest k v

/-- String lookup in an association list (used for the decoder registry and
the flat attribute bag). Models a plain JS dictionary as a finite map;
properties inherited from `Object.prototype` are outside the model. -/
def lookupStr (l : List (String × JsVal)) (k : String) : Option JsVal :=
  (l.find? (fun p => p.1 == k)).map (·.2)

/-- Association-list update with JS dictionary semantics (replace first
occurrence in place, else append). -/
def assocSet (l : List (String × JsVal)) (k : String) (v : JsVal) :
    List (String × JsVal) :=
  match l with
  | [] => [(k, v)]
  | (k', v') :: rest =>
    if k' = k then (k', v) :: rest else (k', v') :: assocSet rest k v

/-- `nullOrUndefined` from src/jsog-decode.js: the value is `undefined` or
`null`. Also exactly the complement of JS loose `!= null`. -/
def nullOrUndefined (v : JsVal) : Bool :=
  match v with
  | .undef => true
  | .null => true
  | _ => false

/-- JS `typeof v === "object"`. Note that `typeof null === "object"` is
true in JavaScript; this quirk is load-bearing for the nested `set`. -/
def jsTypeofObject (v : JsVal) : Bool :=
  match v with
  | .null => true
  | .addr _ => true
  | _ => false

/-- JS truthiness of a value. -/
def jsTruthy (v : JsVal) : Bool :=
  match v with
  | .undef => false
  | .null => false
  | .bool b => b
  | .num n => n != 0
  | .str s => s ≠ ""
  | .addr _ => true

/-- JS `toString` coercion for the value shapes the JSOG wire format uses
for `@id`/`@ref` (strings and numbers, per the spec's wire-format section);
booleans are included for totality. The object branch is a nominal
stand-in for `Object.prototype.toString` output. -/
def jsToString (v : JsVal) : String :=
  match v with
  | .undef => "undefined"
  | .null => "null"
  | .bool b => if b then "true" else "false"
  | .num n => toString n
  | .str s => s
  | .addr _ => "[object Object]"

/-- Canonical decimal rendering test: `k` is the canonical string of the
array index `i` (JS array index semantics reject forms like "01"). -/
def isCanonicalIndex (k : String) (i : Nat) : Bool :=
  toString i == k

/-- Digit-by-digit accumulator for `jsToNat?`. -/
def strToNatAux : List Char → Nat → Option Nat
  | [], acc => some acc
  | c :: rest, acc =>
    if 48 ≤ c.toNat ∧ c.toNat ≤ 57 then
      strToNatAux rest (acc * 10 + (c.toNat - 48))
    else none

/-- Parse a non-empty all-digit string as a natural number (the numeric
part of JS array-index detection; non-canonical forms such as "01" are
rejected by the separate `isCanonicalIndex` check, as in JS). -/
def jsToNat? (s : String) : Option Nat :=
  match s.data with
  | [] => none
  | _ => strToNatAux s.data 0

/-- JS property read `v[k]`, which throws a `TypeError` when `v` is
`null`/`undefined` (modelled as `.error ()`). Reads of primitives return
`undefined` except string `length`/indexing. A dangling address (never
produced by the JS runtime) reads as `undefined`. -/
def getProp (h : Heap) (v : JsVal) (k : String) : Except Unit JsVal :=
  match v with
  | .undef => .error ()
  | .null => .error ()
  | .bool _ => .ok .undef
  | .num _ => .ok .undef
  | .str s =>
    if k = "length" then .ok (.num s.length)
    else .ok .undef
  | .addr a =>
    match h.read a with
    | none => .ok .undef
    | some (.obj fields) => .ok ((fieldsGet fields k).getD .undef)
    | some (.arr elems props) =>
      if k = "length" then .ok (.num elems.length)
      else
        match jsToNat? k with
        | some i =>
          if isCanonicalIndex k i then .ok (elems.getD i .undef)
          else .ok ((fieldsGet props k).getD .undef)
        | none => .ok ((fieldsGet props k).getD .undef)

/-- Total variant of `getProp` used where the caller has already guarded
against `null`/`undefined` (the nested-get loop guards its value before
each read, so the error branch is unreachable there). -/
def getPropD (h : Heap) (v : JsVal) (k : String) : JsVal :=
  match getProp h v k with
  | .ok x => x
  | .error _ => (.undef : JsVal)

/-- JS property write `v[k] = value`. Assignment with a `null`/`undefined`
or (under strict mode, which index.js enables) primitive receiver throws.
Array index writes update/extend the element list (writing past the end
pads with `undefined`, the model of a sparse array); non-index keys become
expando properties. Assigning `length` (array truncation) is never
performed by the repository and leaves the heap unchanged. Writes to a
dangling address leave the heap unchanged (never reachable in JS). -/
def setProp (h : Heap) (v : JsVal) (k : String) (value : JsVal) :
    Except Unit Heap :=
  match v with
  | .undef => .error ()
  | .null => .error ()
  | .bool _ => .error ()
  | .num _ => .error ()
  | .str _ => .error ()
  | .addr a =>
    match h.read a with
    | none => .ok h
    | some (.obj fields) => .ok (h.write a (.obj (fieldsSet fields k value)))
    | some (.arr elems props) =>
      if k = "length" then .ok h
      else
        match jsToNat? k with
        | some i =>
          if isCanonicalIndex k i then
            if i < elems.length then .ok (h.write a (.arr (elems.set i value) props))
            else .ok (h.write a
              (.arr (elems ++ List.replicate (i - elems.length) .undef ++ [value]) props))
          else .ok (h.write a (.arr elems (fieldsSet props k value)))
        | none => .ok (h.write a (.arr elems (fieldsSet props k value)))

/-- Underscore's `_.clone`: non-objects (including `null`) are returned
as-is; objects are shallow-copied into a fresh cell and arrays are copied
with `slice()`, which drops expando properties. -/
def jsClone (h : Heap) (v : JsVal) : JsVal × Heap :=
  match v with
  | .addr a =>
    match h.read a with
    | some (.obj fields) => let (n, h') := h.alloc (.obj fields); (.addr n, h')
    | some (.arr elems _) => let (n, h') := h.alloc (.arr elems []); (.addr n, h')
    | none => (v, h)
  | _ => (v, h)

/-- Elementwise comparison of array elements with the given recursive
comparator (the array loop of underscore's deep equality). -/
def jsEqListWith (eqf : JsVal → JsVal → Bool) : List JsVal → List JsVal → Bool
  | [], [] => true
  | v :: vs, w :: ws => eqf v w && jsEqListWith eqf vs ws
  | _, _ => false

/-- Every field of the second list is present in the first object's field
list `fb` with a comparator-equal value (the object loop of underscore's
deep equality, iterating the keys of one side and looking them up in the
other). -/
def jsEqFieldsWith (eqf : JsVal → JsVal → Bool)
    (fb : List (String × JsVal)) : List (String × JsVal) → Bool
  | [] => true
  | (k, v) :: rest =>
    match fieldsGet fb k with
    | some w => eqf v w && jsEqFieldsWith eqf fb rest
    | none => false

/-- Underscore's `_.isEqual` deep structural equality, with a fuel bound on
the recursion depth. Identical references compare equal immediately (the
`a === b` fast path); objects compare by key-set and recursive values
(order-insensitive), arrays by length and elements (expando properties are
ignored, as underscore does for arrays). `_.isEqual` itself is
cycle-tolerant; the fuel-bounded model agrees with it on all comparisons
whose structural exploration is shallower than the fuel. -/
def jsEqual : Nat → Heap → JsVal → JsVal → Bool
  | 0, _, _, _ => false
  | fuel + 1, h, x, y =>
    match x, y with
    | .addr a, .addr b =>
      if a = b then true
      else
        match h.read a, h.read b with
        | some (.obj fa), some (.obj fb) =>
          fa.length == fb.length && jsEqFieldsWith (jsEqual fuel h) fb fa
        | some (.arr ea _), some (.arr eb _) =>
          ea.length == eb.length && jsEqListWith (jsEqual fuel h) ea eb
        | _, _ => false
    | .addr _, _ => false
    | _, .addr _ => false
    | x', y' => x' == y'

/-- A change notification recorded by `trigger`. The first argument of the
JS event (the emitting model itself) is implicit; `value` is the new-value
argument carried by `change:<path>` events (`none` for events that carry
no value argument) and `opts` is the caller-supplied options object. -/
structure Event where
  name : String
  value : Option JsVal
  opts : List (String × JsVal)
deriving DecidableEq, Repr

/-- A JS options object, as passed to `set` and forwarded to events. -/
abbrev Opts := List (String × JsVal)

/-- An observable model: its heap, its flat attribute bag, and the trace
of events it has emitted. -/
structure Model where
  heap : Heap
  attrs : List (String × JsVal)
  events : List Event
deriving DecidableEq, Repr

/-- Modelled from the spec: the external observable-model base's flat
accessor (`oldGet` in index.js, i.e. Backbone's `Model.get`): a read of
the flat attribute bag, `undefined` when absent. -/
def flatGet (m : Model) (k : String) : JsVal :=
  ((lookupStr m.attrs k).getD .undef : JsVal)

/-- Modelled from the spec: the external observable-model base's flat
setter (`oldSet` in index.js) restricted to the single-key call shape used
by the nested `set`: store the value in the bag and, unless the options
carry a truthy `silent`, emit `change:<key>` and `change`. Every call from
the nested `set` passes `silent: true`. -/
def flatSet (m : Model) (k : String) (v : JsVal) (options : Opts) : Model :=
  let m' : Model := { m with attrs := assocSet m.attrs k v }
  if jsTruthy ((lookupStr options "silent").getD .undef) then m'
  else
    { m' with
      events := m'.events ++
        [⟨"change:" ++ k, some v, options⟩, ⟨"change", none, options⟩] }

/-- Modelled from the spec: the event-trigger hook of the observable-model
base: append one event to the trace. -/
def trigger (m : Model) (name : String) (value : Option JsVal)
    (options : Opts) : Model :=
  { m with events := m.events ++ [⟨name, value, options⟩] }

/-- The traversal loop of the nested `get` (index.js): while segments
remain and the current value is neither `undefined` nor `null`, move to
the next property. The modelled value universe contains no function
values, so the `typeof val.get === "function"` delegation branch (nesting
of path-aware models) is never taken and the loop always performs the
plain `val = val[pc]` read, which its guard has made safe. -/
def walk (h : Heap) : JsVal → List String → JsVal
  | v, [] => v
  | v, pc :: rest =>
    if nullOrUndefined v then v else walk h (getPropD h v pc) rest

/-- Accumulating splitter over the character list (current piece carried
reversed). -/
def splitDotsAux : List Char → List Char → List String
  | [], acc => [String.mk acc.reverse]
  | ch :: rest, acc =>
    if ch = '.' then String.mk acc.reverse :: splitDotsAux rest []
    else splitDotsAux rest (ch :: acc)

/-- JS `attribute.split(".")`: the list of dot-separated pieces, which is
never empty (splitting the empty string gives `[""]`). -/
def splitDots (s : String) : List String :=
  splitDotsAux s.data []

/-- The nested `get` of index.js for a string attribute: a single-piece
path passes through to the flat accessor, otherwise the first piece is
read flat and the rest is walked. -/
def mget (m : Model) (attrName : String) : JsVal :=
  match splitDots attrName with
  | [] => flatGet m attrName
  | [_] => flatGet m attrName
  | firstPc :: rest => walk m.heap (flatGet m firstPc) rest

/-- Outcome of a `set` call: normal return of `this`, or a propagated
`TypeError`; both carry the model state (attribute bag, event trace, heap)
at that point, since a thrown exception does not roll JS state back. -/
inductive SetOutcome where
  | ok (m : Model)
  | thrown (m : Model)
deriving DecidableEq, Repr

/-- The model state carried by a `set` outcome. -/
def SetOutcome.state : SetOutcome → Model
  | .ok m => m
  | .thrown m => m

/-- Outcome of processing one `(attribute, value)` pair inside `set`'s
`_.each` loop: the updated model plus the accumulated `triggerChange`
flag, or a propagated `TypeError`. -/
inductive PairOutcome where
  | ok (m : Model) (triggerChange : Bool)
  | thrown (m : Model)
deriving DecidableEq, Repr

/-- The `while (pcs.length > 1)` walk of the nested `set` (index.js). Note
that, as in the source, the walk both tests and assigns through
`toSet[nextPc]` — the top-level copy — rather than through the walk
pointer `ptr`, and `ptr` is re-read from `toSet[nextPc]` each iteration.
(The source's `lastPtr`/`lastSetPc` variables are assigned but never read
and are omitted.) Returns the final pointer, the last path piece and the
heap, or the heap at a thrown `TypeError`. The empty-list case cannot be
reached (the walk is entered with at least one remaining piece). -/
def setWalk (toSet : JsVal) : List String → JsVal → Heap →
    Except Heap (JsVal × String × Heap)
  | [lastPc], ptr, h => .ok (ptr, lastPc, h)
  | nextPc :: rest, _, h =>
    match getProp h toSet nextPc with
    | .error _ => .error h
    | .ok tv =>
      if jsTypeofObject tv then setWalk toSet rest tv h
      else
        let (na, h1) := h.alloc (.obj [])
        match setProp h1 toSet nextPc (.addr na) with
        | .error _ => .error h1
        | .ok h2 =>
          match getProp h2 toSet nextPc with
          | .error _ => .error h2
          | .ok ptr' => setWalk toSet rest ptr' h2
  | [], ptr, h => .ok (ptr, "", h)

/-- One iteration of the `_.each(attrHash, ...)` body of the nested `set`
(index.js): split the attribute, shallow-clone the current top-level
value, and either perform the flat comparison/set (single piece) or walk
and assign the nested leaf, with the deep-equality skip and the exact-path
event in each branch. `eqFuel` bounds the depth explored by the
deep-equality comparison. -/
def setOnePair (eqFuel : Nat) (options silentOptions : Opts) (m : Model)
    (tc : Bool) (attrName : String) (value : JsVal) : PairOutcome :=
  let pcs := splitDots attrName
  let firstPc := pcs.headD attrName
  let restPcs := pcs.tail
  let (topLevelValue, h1) := jsClone m.heap (flatGet m firstPc)
  match restPcs with
  | [] =>
    if jsEqual eqFuel h1 value topLevelValue then .ok { m with heap := h1 } tc
    else
      let m2 := flatSet { m with heap := h1 } firstPc value silentOptions
      .ok (trigger m2 ("change:" ++ firstPc) (some value) options) true
  | _ :: _ =>
    let (toSet, h2) :=
      if jsTypeofObject topLevelValue then (topLevelValue, h1)
      else
        let (na, h2) := h1.alloc (.obj [])
        (JsVal.addr na, h2)
    match setWalk toSet restPcs toSet h2 with
    | .error h3 => .thrown { m with heap := h3 }
    | .ok (ptr, lastPc, h3) =>
      let oldVal := mget { m with heap := h3 } attrName
      if jsEqual eqFuel h3 oldVal value then .ok { m with heap := h3 } tc
      else
        match setProp h3 ptr lastPc value with
        | .error _ => .thrown { m with heap := h3 }
        | .ok h4 =>
          let m2 := flatSet { m with heap := h4 } firstPc toSet silentOptions
          .ok (trigger m2 ("change:" ++ attrName) (some value) options) true

/-- The `_.each` loop over the attribute hash, threading the model and the
`triggerChange` flag; a thrown `TypeError` aborts the remaining pairs. -/
def setPairsLoop (eqFuel : Nat) (options silentOptions : Opts) :
    List (String × JsVal) → Model → Bool → PairOutcome
  | [], m, tc => .ok m tc
  | (attrName, value) :: rest, m, tc =>
    match setOnePair eqFuel options silentOptions m tc attrName value with
    | .thrown m' => .thrown m'
    | .ok m' tc' => setPairsLoop eqFuel options silentOptions rest m' tc'

/-- The nested `set` of index.js on a resolved attribute hash: build
`silentOptions` (`_.extend({}, options, { silent: true })`), process every
pair, and fire one generic `change` event if any pair mutated something.
The modelled hash keys are strings (JS object keys always are; the
`toString` coercion branch for non-string `_.each` keys concerns array
hashes, which the repository never passes). -/
def msetPairs (eqFuel : Nat) (m : Model) (pairs : List (String × JsVal))
    (options : Opts) : SetOutcome :=
  let silentOptions := assocSet options "silent" (.bool true)
  match setPairsLoop eqFuel options silentOptions pairs m false with
  | .thrown m' => .thrown m'
  | .ok m' tc => .ok (if tc then trigger m' "change" none options else m')

/-- `set(key, value, options)` with a string key: converted to the
single-pair hash shape, as in the source. -/
def mset (eqFuel : Nat) (m : Model) (key : String) (val : JsVal)
    (options : Opts) : SetOutcome :=
  msetPairs eqFuel m [(key, val)] options

/-- The idempotency marker key `JSOG_OBJECT_DECODED` of src/jsog-decode.js. -/
def MARKER : String := "__jsogObjectDecoded"

/-- Decoder state: the JS heap plus the `found` registry mapping reference
ids to the (possibly still under construction) result objects. The
registry lives only for one top-level decode call. -/
structure DecState where
  heap : Heap
  found : List (String × JsVal)
deriving DecidableEq, Repr

/-- Write one field of a result object under construction
(`result[key] = ...` in `decodeObject`). The receiver is always an object
cell allocated by the decoder, so the other branches are unreachable. -/
def heapSetField (h : Heap) (ra : Addr) (k : String) (v : JsVal) : Heap :=
  match h.read ra with
  | some (.obj fs) => h.write ra (.obj (fieldsSet fs k v))
  | _ => h

/-- `decodeArray`'s element loop, parameterized by the recursive decode:
decode each element in order, threading the state. -/
def decListWith (dec : JsVal → DecState → Option (JsVal × DecState)) :
    List JsVal → DecState → Option (List JsVal × DecState)
  | [], st => some ([], st)
  | v :: rest, st =>
    match dec v st with
    | none => none
    | some (d, st') =>
      match decListWith dec rest st' with
      | none => none
      | some (ds, st'') => some (d :: ds, st'')

/-- `decodeObject`'s field-copy loop, parameterized by the recursive
decode: every own field except `@id` is decoded and written into the
result object `ra`. -/
def decFieldsWith (dec : JsVal → DecState → Option (JsVal × DecState))
    (ra : Addr) : List (String × JsVal) → DecState → Option DecState
  | [], st => some st
  | (k, fv) :: rest, st =>
    if k = "@id" then decFieldsWith dec ra rest st
    else
      match dec fv st with
      | none => none
      | some (d, st') =>
        decFieldsWith dec ra rest { st' with heap := heapSetField st'.heap ra k d }

/-- `doDecode` of src/jsog-decode.js. `null`/`undefined` and primitives
are returned unchanged; arrays are rebuilt fresh with decoded elements;
objects go through `decodeObject`: marker check, `@ref` resolution via the
registry, fresh result allocation, registration of the result under a
truthy id before recursing into the fields (excluding `@id`), and finally
the marker write. The fuel bounds the recursion depth (`none` models a
decode that does not finish within it); a read of a dangling address also
yields `none`, as no JS execution reaches such a state. -/
def doDecode : Nat → JsVal → DecState → Option (JsVal × DecState)
  | 0, _, _ => none
  | fuel + 1, v, st =>
    match v with
    | .undef => some (v, st)
    | .null => some (v, st)
    | .bool _ => some (v, st)
    | .num _ => some (v, st)
    | .str _ => some (v, st)
    | .addr a =>
      match st.heap.read a with
      | none => none
      | some (.arr elems _) =>
        match decListWith (doDecode fuel) elems st with
        | none => none
        | some (ds, st') =>
          let (na, h') := st'.heap.alloc (.arr ds [])
          some (.addr na, { st' with heap := h' })
      | some (.obj fields) =>
        if fieldsGet fields MARKER = some (.bool true) then some (v, st)
        else
          let refv := (fieldsGet fields "@ref").getD .undef
          if nullOrUndefined refv = false then
            some ((lookupStr st.found (jsToString refv)).getD .undef, st)
          else
            let (ra, h1) := st.heap.alloc (.obj [])
            let idv := (fieldsGet fields "@id").getD .undef
            let found1 :=
              if nullOrUndefined idv = false ∧ jsToString idv ≠ "" then
                assocSet st.found (jsToString idv) (.addr ra)
              else st.found
            match decFieldsWith (doDecode fuel) ra fields ⟨h1, found1⟩ with
            | none => none
            | some st2 =>
              some (.addr ra,
                { st2 with heap := heapSetField st2.heap ra MARKER (.bool true) })

/-- The exported decode of src/jsog-decode.js: one top-level call with a
fresh (empty) registry, discarded afterwards. -/
def jsogDecode (fuel : Nat) (h : Heap) (v : JsVal) : Option (JsVal × Heap) :=
  (doDecode fuel v ⟨h, []⟩).map (fun p => (p.1, p.2.heap))

/-- Whether a `set` call returned normally. -/
def SetOutcome.isOk : SetOutcome → Bool
  | .ok _ => true
  | .thrown _ => false

/-- A fresh model: empty heap, empty attribute bag, no events yet. -/
def emptyModel : Model := ⟨Heap.empty, [], []⟩

/-- C1: the claim states that for every dotted path, `set(p, v)` followed
by `get(p)` yields a value deep-equal to `v`. The code violates it for
paths of four or more segments, because the `while` walk of `set` indexes
off the top-level copy (`toSet[nextPc]`) instead of the walk pointer
(`ptr[nextPc]`): `set("a.b.c.d", "x")` on a fresh model stores
`{ b: {}, c: { d: "x" } }` under `a`, and `get("a.b.c.d")` then returns
`undefined`, not `"x"`. This contradicts the repository's own test, which
sets the four-segment path `abc.my.fake.attribute` and reads it back. -/
theorem c1_depth4_roundtrip_returns_undef :
    (mset 5 emptyModel "a.b.c.d" (.str "x") []).isOk = true ∧
    mget (mset 5 emptyModel "a.b.c.d" (.str "x") []).state "a.b.c.d"
      = JsVal.undef ∧
    JsVal.undef ≠ JsVal.str "x" := by decide

/-- The model after `set("a.b.c", "x")` on a fresh model (C2 scenario);
its bag holds `a ↦ addr 0` with `addr 0 = { b: addr 1 }` and
`addr 1 = { c: "x" }`. -/
def c2m1 : Model := (mset 5 emptyModel "a.b.c" (.str "x") []).state

/-- C2: the claim states that after `set("a.b.c", x)`, capturing
`obj = get("a.b")`, a later `set("a.b.c", y)` leaves `obj.c` equal to `x`.
The code violates it: only the top level is shallow-cloned, the walk then
aliases the existing nested object (`ptr = toSet["b"]`, the very cell a
previous `get("a.b")` returned), and `ptr["c"] = y` mutates it in place.
Here `obj` is the cell at address 1: before the second set `obj.c = "x"`,
afterwards `obj.c = "y"` (while `get("a.b.c")` returns `"y"` as claimed).
The repository's test titled "should not reuse objects when setting
nested fields" asserts exactly the violated behaviour. -/
theorem c2_previously_returned_nested_object_is_mutated :
    mget c2m1 "a.b" = JsVal.addr 1 ∧
    getPropD c2m1.heap (JsVal.addr 1) "c" = JsVal.str "x" ∧
    getPropD (mset 5 c2m1 "a.b.c" (.str "y") []).state.heap
      (JsVal.addr 1) "c" = JsVal.str "y" ∧
    mget (mset 5 c2m1 "a.b.c" (.str "y") []).state "a.b.c"
      = JsVal.str "y" := by decide

/-- Encoded input for the C3 scenario: an array (address 0) holding one
plain object (address 1). -/
def c3heap : Heap := ⟨[(0, .arr [.addr 1] []), (1, .obj [("n", .num 7)])], 2⟩

/-- The heap after the first decode of the C3 scenario: the decode output
is the fresh array at address 3 holding the fresh marked object at
address 2. -/
def c3heap1 : Heap :=
  ⟨[(3, .arr [.addr 2] []),
    (2, .obj [("n", .num 7), (MARKER, .bool true)]),
    (0, .arr [.addr 1] []),
    (1, .obj [("n", .num 7)])], 4⟩

/-- C3 counterexample: the claim states that decode applied to a previous
decode output `g` returns `g` unchanged, with the same object identities.
It fails when `g` is an array: `decodeArray` unconditionally rebuilds a
fresh array, so the second decode returns address 4, not the input
address 3 (its element, a marked object, is returned as-is). -/
theorem c3_second_decode_returns_fresh_array :
    jsogDecode 10 c3heap (.addr 0) = some (.addr 3, c3heap1) ∧
    (jsogDecode 10 c3heap1 (.addr 3)).map Prod.fst = some (JsVal.addr 4) ∧
    JsVal.addr 4 ≠ JsVal.addr 3 := by decide

/-- C3 amended: any object carrying the decoded marker is returned as-is
by decode — the identical reference, with no traversal of its fields, no
new allocation and no registry change (the state is untouched). The
identity part of the original claim holds for mapping outputs; array
outputs are re-traversed into a fresh array whose elements keep their
identities, as the counterexample shows. -/
theorem c3_marked_object_returned_unchanged (fuel : Nat) (st : DecState)
    (a : Addr) (fields : List (String × JsVal))
    (hread : st.heap.read a = some (.obj fields))
    (hmark : fieldsGet fields MARKER = some (.bool true)) :
    doDecode (fuel + 1) (.addr a) st = some (.addr a, st) := by
  simp [doDecode, hread, hmark]

/-- Witness for the amended C3 theorem at a concrete marked object. -/
theorem c3_marked_object_returned_unchanged_witness :
    (Heap.read ⟨[(0, .obj [(MARKER, .bool true)])], 1⟩ 0
        = some (.obj [(MARKER, .bool true)]) ∧
      fieldsGet [(MARKER, .bool true)] MARKER = some (.bool true)) ∧
    doDecode 4 (.addr 0) ⟨⟨[(0, .obj [(MARKER, .bool true)])], 1⟩, []⟩
      = some (.addr 0, ⟨⟨[(0, .obj [(MARKER, .bool true)])], 1⟩, []⟩) :=
  ⟨⟨by decide, by decide⟩,
    c3_marked_object_returned_unchanged 3
      ⟨⟨[(0, .obj [(MARKER, .bool true)])], 1⟩, []⟩ 0
      [(MARKER, .bool true)] (by decide) (by decide)⟩

/-- Encoded three-node cycle for C4: node A at address 3 (`@id` "1"),
whose `next` is B at address 2 (`@id` "2"), whose `next` is C at address 1
(`@id` "3"), whose `next` is the reference node `{"@ref": "1"}` at
address 0. -/
def c4heap : Heap :=
  ⟨[(3, .obj [("@id", .str "1"), ("next", .addr 2)]),
    (2, .obj [("@id", .str "2"), ("next", .addr 1)]),
    (1, .obj [("@id", .str "3"), ("next", .addr 0)]),
    (0, .obj [("@ref", .str "1")])], 4⟩

/-- C4: decoding the encoded three-node cycle yields an object `A`
(address 4) with `A.next.next.next` the very same address — a true cyclic
object graph, restored because the fresh result object is registered
under its id before its fields are decoded. -/
theorem c4_cycle_decodes_to_identical_object :
    (jsogDecode 10 c4heap (.addr 3)).map
      (fun p => (p.1,
        getPropD p.2 (getPropD p.2 (getPropD p.2 p.1 "next") "next") "next"))
      = some (JsVal.addr 4, JsVal.addr 4) := by decide

/-- Encoded input for C5: a wrapper whose `one` field carries
`{"@id": "1", name: "hello"}` and whose `two` field carries
`{"@ref": "1"}`. -/
def c5heap : Heap :=
  ⟨[(2, .obj [("one", .addr 0), ("two", .addr 1)]),
    (0, .obj [("@id", .str "1"), ("name", .str "hello")]),
    (1, .obj [("@ref", .str "1")])], 3⟩

/-- C5: after decoding, the `one` and `two` fields hold the identical
object (the same address 4), and that shared object carries
`name = "hello"`; the reference node resolved to the very object produced
for the id-carrying node. -/
theorem c5_ref_resolves_to_identical_object :
    (jsogDecode 10 c5heap (.addr 2)).map
      (fun p => (getPropD p.2 p.1 "one", getPropD p.2 p.1 "two",
        getPropD p.2 (getPropD p.2 p.1 "two") "name"))
      = some (JsVal.addr 4, JsVal.addr 4, JsVal.str "hello") := by decide

/-- A model whose top-level attribute `a` is `null` (C6 counterexample
state). -/
def c6nullModel : Model := ⟨Heap.empty, [("a", JsVal.null)], []⟩

/-- C6 counterexample: the claim states that setting `a.b.c` to a value
not deep-equal to the current one triggers exactly `change:a.b.c` and a
generic `change`. On a model whose `a` is `null`, the walk reads
`toSet["b"]` with `toSet = null` (kept, because `typeof null` is
`"object"`) and throws a `TypeError` before any event fires: the call
returns abnormally with the model unchanged and an empty event trace. -/
theorem c6_null_top_level_throws_without_events :
    mset 5 c6nullModel "a.b.c" (.str "x") [] = .thrown c6nullModel ∧
    c6nullModel.events = [] := by decide

/-- C9: the traversal loop of the nested `get` stops early: as soon as the
value reached by some prefix of the path is `null` or `undefined`, the
whole walk returns that very value, however many segments remain. The
walk is a pure function of the heap by its type — it performs no heap
writes, so it cannot create missing intermediate structure — and it is
total, the model of `get` never throwing (every property read it performs
is guarded by the `null`/`undefined` check). -/
theorem c9_get_stops_at_null_or_absent (h : Heap) (v : JsVal)
    (s1 s2 : List String) (hstop : nullOrUndefined (walk h v s1) = true) :
    walk h v (s1 ++ s2) = walk h v s1 := by
  induction s1 generalizing v with
  | nil =>
    simp only [walk, List.nil_append] at hstop ⊢
    cases s2 with
    | nil => simp [walk]
    | cons pc rest => simp [walk, hstop]
  | cons pc rest ih =>
    by_cases hv : nullOrUndefined v = true
    · simp [walk, hv]
    · simp only [List.cons_append, walk, hv, if_false, Bool.false_eq_true] at hstop ⊢
      exact ih _ hstop

/-- Witness for C9: on a model whose `a` holds `{ b: null }`, the walk of
`["b"]` from the top-level value reaches `null`, and appending the
remaining segments `["c", "d"]` leaves the result unchanged. -/
theorem c9_get_stops_at_null_or_absent_witness :
    nullOrUndefined
        (walk ⟨[(0, .obj [("b", .null)])], 1⟩ (.addr 0) ["b"]) = true ∧
    walk ⟨[(0, .obj [("b", .null)])], 1⟩ (.addr 0) (["b"] ++ ["c", "d"])
      = walk ⟨[(0, .obj [("b", .null)])], 1⟩ (.addr 0) ["b"] :=
  ⟨by decide,
    c9_get_stops_at_null_or_absent ⟨[(0, .obj [("b", .null)])], 1⟩
      (.addr 0) ["b"] ["c", "d"] (by decide)⟩

/-- C8: an object carrying a reference field naming an id that the
registry does not know resolves to `undefined` (the registry read
`found[ref]` of a missing key), without any error: decode returns
normally, with the state untouched. The registry is modelled as a finite
map, as the spec describes it; properties JS dictionaries inherit from
`Object.prototype` are outside the model. -/
theorem c8_dangling_ref_decodes_to_undefined (fuel : Nat) (st : DecState)
    (a : Addr) (fields : List (String × JsVal)) (rv : JsVal)
    (hread : st.heap.read a = some (.obj fields))
    (hmark : fieldsGet fields MARKER ≠ some (.bool true))
    (href : fieldsGet fields "@ref" = some rv)
    (hnn : nullOrUndefined rv = false)
    (hdangle : lookupStr st.found (jsToString rv) = none) :
    doDecode (fuel + 1) (.addr a) st = some (.undef, st) := by
  simp [doDecode, hread, hmark, href, hnn, hdangle]

/-- Witness for C8: decoding `{"@ref": "1"}` with an empty registry (no
id `"1"` was ever defined) yields `undefined` and leaves the state
unchanged. -/
theorem c8_dangling_ref_decodes_to_undefined_witness :
    (Heap.read ⟨[(0, .obj [("@ref", .str "1")])], 1⟩ 0
        = some (.obj [("@ref", .str "1")]) ∧
      lookupStr ([] : List (String × JsVal)) (jsToString (.str "1")) = none) ∧
    doDecode 5 (.addr 0) ⟨⟨[(0, .obj [("@ref", .str "1")])], 1⟩, []⟩
      = some (.undef, ⟨⟨[(0, .obj [("@ref", .str "1")])], 1⟩, []⟩) :=
  ⟨⟨by decide, by decide⟩,
    c8_dangling_ref_decodes_to_undefined 4
      ⟨⟨[(0, .obj [("@ref", .str "1")])], 1⟩, []⟩ 0
      [("@ref", .str "1")] (.str "1") (by decide) (by decide) (by decide)
      (by decide) (by decide)⟩

/-- A value is defined in a heap: if it is a reference, the referenced
cell exists. Primitives are always defined. -/
def valDefined (h : Heap) (v : JsVal) : Bool :=
  match v with
  | .addr a => (h.read a).isSome
  | _ => true

/-- All values stored directly in a cell. -/
def cellVals : JsCell → List JsVal
  | .obj f => f.map Prod.snd
  | .arr els props => els ++ props.map Prod.snd

/-- The string keys of a cell are duplicate-free (JS objects cannot hold
the same own key twice). -/
def cellKeysNodup : JsCell → Prop
  | .obj f => (f.map Prod.fst).Nodup
  | .arr _ props => (props.map Prod.fst).Nodup

instance (c : JsCell) : Decidable (cellKeysNodup c) :=
  match c with
  | .obj f => (inferInstance : Decidable ((f.map Prod.fst).Nodup))
  | .arr _ props => (inferInstance : Decidable ((props.map Prod.fst).Nodup))

/-- Heap well-formedness: every allocated address is below `next`, every
value stored in a cell is defined, and no cell repeats a key. Every heap a
JS execution can produce satisfies this. -/
def Heap.WF (h : Heap) : Prop :=
  (∀ p ∈ h.cells, p.1 < h.next) ∧
  (∀ p ∈ h.cells, ∀ u ∈ cellVals p.2, valDefined h u = true) ∧
  (∀ p ∈ h.cells, cellKeysNodup p.2)

/-- Model well-formedness: the heap is well-formed and every attribute
value is defined. -/
def Model.WF (m : Model) : Prop :=
  m.heap.WF ∧ ∀ p ∈ m.attrs, valDefined m.heap p.2 = true

instance (h : Heap) : Decidable h.WF :=
  inferInstanceAs (Decidable
    ((∀ p ∈ h.cells, p.1 < h.next) ∧
      (∀ p ∈ h.cells, ∀ u ∈ cellVals p.2, valDefined h u = true) ∧
      (∀ p ∈ h.cells, cellKeysNodup p.2)))

instance (m : Model) : Decidable m.WF :=
  inferInstanceAs (Decidable
    (m.heap.WF ∧ ∀ p ∈ m.attrs, valDefined m.heap p.2 = true))

/-- `h'` extends `h₀` outside the region existing at `h₀`: all old
addresses read the same, and allocation has only moved forward. The heaps
reached by operations that write only to cells allocated after `h₀` stand
in this relation to `h₀`. -/
def RegionExt (h₀ h : Heap) : Prop :=
  h₀.next ≤ h.next ∧ ∀ a, a < h₀.next → h.read a = h₀.read a

theorem Heap.read_mem {h : Heap} {a : Addr} {c : JsCell}
    (hr : h.read a = some c) : (a, c) ∈ h.cells := by
  unfold Heap.read at hr
  cases hf : h.cells.find? (fun p => p.1 == a) with
  | none => rw [hf] at hr; simp at hr
  | some q =>
    rw [hf] at hr
    have hq := List.find?_some hf
    have hmem := List.mem_of_find?_eq_some hf
    obtain ⟨q1, q2⟩ := q
    simp only [beq_iff_eq] at hq
    simp only [Option.map_some'] at hr
    obtain rfl := hq
    obtain rfl : q2 = c := by simpa using hr
    exact hmem

theorem Heap.WF.read_lt {h : Heap} (hwf : h.WF) {a : Addr} {c : JsCell}
    (hr : h.read a = some c) : a < h.next :=
  hwf.1 _ (Heap.read_mem hr)

theorem Heap.WF.read_lt_of_isSome {h : Heap} (hwf : h.WF) {a : Addr}
    (hr : (h.read a).isSome = true) : a < h.next := by
  cases hc : h.read a with
  | none => rw [hc] at hr; simp at hr
  | some c => exact hwf.read_lt hc

theorem Heap.WF.read_vals {h : Heap} (hwf : h.WF) {a : Addr} {c : JsCell}
    (hr : h.read a = some c) : ∀ u ∈ cellVals c, valDefined h u = true :=
  hwf.2.1 _ (Heap.read_mem hr)

theorem Heap.WF.read_nodup {h : Heap} (hwf : h.WF) {a : Addr} {c : JsCell}
    (hr : h.read a = some c) : cellKeysNodup c :=
  hwf.2.2 _ (Heap.read_mem hr)

theorem Heap.read_none_of_le {h : Heap} (hwf : h.WF) {a : Addr}
    (ha : h.next ≤ a) : h.read a = none := by
  cases hc : h.read a with
  | none => rfl
  | some c => exact absurd (hwf.read_lt hc) (not_lt.mpr ha)

theorem find?_eraseP_key_ne (l : List (Addr × JsCell)) (a b : Addr)
    (hne : b ≠ a) :
    (l.eraseP (fun p => p.1 == a)).find? (fun p => p.1 == b)
      = l.find? (fun p => p.1 == b) := by
  induction l with
  | nil => rfl
  | cons q rest ih =>
    obtain ⟨q1, q2⟩ := q
    by_cases hq : q1 = a
    · subst hq
      simp only [List.eraseP_cons, List.find?_cons, beq_self_eq_true,
        cond_true]
      have hqb : (q1 == b) = false := beq_eq_false_iff_ne.mpr (Ne.symm hne)
      simp [hqb]
    · have hqa : (q1 == a) = false := beq_eq_false_iff_ne.mpr hq
      by_cases hqb : q1 = b
      · subst hqb
        have hba : (q1 == a) = false := hqa
        simp [List.eraseP_cons, List.find?_cons, hba]
      · have hqb' : (q1 == b) = false := beq_eq_false_iff_ne.mpr hqb
        simp [List.eraseP_cons, List.find?_cons, hqa, hqb', ih]

theorem Heap.read_write_self (h : Heap) (a : Addr) (c : JsCell) :
    (h.write a c).read a = some c := by
  simp [Heap.read, Heap.write, List.find?_cons]

theorem Heap.read_write_ne (h : Heap) {a b : Addr} (c : JsCell)
    (hne : b ≠ a) : (h.write a c).read b = h.read b := by
  have hab : (a == b) = false := beq_eq_false_iff_ne.mpr (Ne.symm hne)
  simp only [Heap.read, Heap.write, List.find?_cons, hab, cond_false]
  rw [find?_eraseP_key_ne _ _ _ hne]

theorem Heap.next_write (h : Heap) (a : Addr) (c : JsCell) :
    (h.write a c).next = h.next := rfl

theorem Heap.read_alloc_self (h : Heap) (c : JsCell) :
    (h.alloc c).2.read h.next = some c := by
  simp [Heap.read, Heap.alloc, List.find?_cons]

theorem Heap.read_alloc_ne (h : Heap) {b : Addr} (c : JsCell)
    (hne : b ≠ h.next) : (h.alloc c).2.read b = h.read b := by
  have hab : (h.next == b) = false := beq_eq_false_iff_ne.mpr (Ne.symm hne)
  simp only [Heap.read, Heap.alloc, List.find?_cons, hab, cond_false]

theorem Heap.next_alloc (h : Heap) (c : JsCell) :
    (h.alloc c).2.next = h.next + 1 := rfl

theorem RegionExt.refl (h : Heap) : RegionExt h h :=
  ⟨le_refl _, fun _ _ => rfl⟩

theorem RegionExt.trans {h₀ h₁ h₂ : Heap} (e1 : RegionExt h₀ h₁)
    (e2 : RegionExt h₁ h₂) : RegionExt h₀ h₂ :=
  ⟨le_trans e1.1 e2.1,
    fun a ha => (e2.2 a (lt_of_lt_of_le ha e1.1)).trans (e1.2 a ha)⟩

theorem RegionExt.alloc {h₀ h : Heap} (hre : RegionExt h₀ h) (c : JsCell) :
    RegionExt h₀ (h.alloc c).2 :=
  ⟨le_trans hre.1 (Nat.le_succ _),
    fun a ha =>
      (Heap.read_alloc_ne h c
        (Nat.ne_of_lt (lt_of_lt_of_le ha hre.1))).trans (hre.2 a ha)⟩

theorem RegionExt.write_ge {h₀ h : Heap} (hre : RegionExt h₀ h) {t : Addr}
    (ht : h₀.next ≤ t) (c : JsCell) : RegionExt h₀ (h.write t c) :=
  ⟨by rw [Heap.next_write]; exact hre.1,
    fun a ha =>
      (Heap.read_write_ne h c
        (Nat.ne_of_lt (lt_of_lt_of_le ha ht))).trans (hre.2 a ha)⟩

theorem lookupStr_eq_fieldsGet : lookupStr = fieldsGet := rfl

theorem assocSet_eq_fieldsSet (l : List (String × JsVal)) (k : String)
    (v : JsVal) : assocSet l k v = fieldsSet l k v := by
  induction l with
  | nil => rfl
  | cons q rest ih =>
    obtain ⟨q1, q2⟩ := q
    by_cases hq : q1 = k <;> simp [assocSet, fieldsSet, hq, ih]

theorem fieldsGet_mem {f : List (String × JsVal)} {k : String} {v : JsVal}
    (hg : fieldsGet f k = some v) : (k, v) ∈ f := by
  unfold fieldsGet at hg
  cases hf : f.find? (fun p => p.1 == k) with
  | none => rw [hf] at hg; simp at hg
  | some q =>
    rw [hf] at hg
    have hq := List.find?_some hf
    have hmem := List.mem_of_find?_eq_some hf
    obtain ⟨q1, q2⟩ := q
    simp only [beq_iff_eq] at hq
    simp only [Option.map_some'] at hg
    obtain rfl := hq
    obtain rfl : q2 = v := by simpa using hg
    exact hmem

theorem fieldsGet_eq_none {f : List (String × JsVal)} {k : String} :
    fieldsGet f k = none ↔ ∀ p ∈ f, p.1 ≠ k := by
  unfold fieldsGet
  rw [Option.map_eq_none', List.find?_eq_none]
  simp

theorem fieldsGet_of_mem_nodup {f : List (String × JsVal)} {k : String}
    {v : JsVal} (hnd : (f.map Prod.fst).Nodup) (hm : (k, v) ∈ f) :
    fieldsGet f k = some v := by
  induction f with
  | nil => cases hm
  | cons q rest ih =>
    obtain ⟨q1, q2⟩ := q
    rcases List.mem_cons.mp hm with hm1 | hm2
    · cases hm1
      simp [fieldsGet, List.find?_cons]
    · have hq1 : q1 ≠ k := by
        intro hx
        subst hx
        exact (List.nodup_cons.mp hnd).1
          (List.mem_map.mpr ⟨(q1, v), hm2, rfl⟩)
      have hb : (q1 == k) = false := beq_eq_false_iff_ne.mpr hq1
      simp only [fieldsGet, List.find?_cons, hb, cond_false]
      exact ih (List.nodup_cons.mp hnd).2 hm2

theorem fieldsGet_fieldsSet_self (f : List (String × JsVal)) (k : String)
    (v : JsVal) : fieldsGet (fieldsSet f k v) k = some v := by
  induction f with
  | nil => simp [fieldsSet, fieldsGet, List.find?_cons]
  | cons q rest ih =>
    obtain ⟨q1, q2⟩ := q
    by_cases hq : q1 = k
    · subst hq
      simp [fieldsSet, fieldsGet, List.find?_cons]
    · have hb : (q1 == k) = false := beq_eq_false_iff_ne.mpr hq
      simp only [fieldsSet, if_neg hq]
      simp only [fieldsGet, List.find?_cons, hb, cond_false]
      exact ih

theorem fieldsGet_fieldsSet_ne (f : List (String × JsVal)) {k k' : String}
    (v : JsVal) (hne : k' ≠ k) :
    fieldsGet (fieldsSet f k v) k' = fieldsGet f k' := by
  induction f with
  | nil =>
    have hb : (k == k') = false := beq_eq_false_iff_ne.mpr (Ne.symm hne)
    simp [fieldsSet, fieldsGet, List.find?_cons, hb]
  | cons q rest ih =>
    obtain ⟨q1, q2⟩ := q
    by_cases hq : q1 = k
    · subst hq
      have hb : (q1 == k') = false := beq_eq_false_iff_ne.mpr (Ne.symm hne)
      simp [fieldsSet, fieldsGet, List.find?_cons, hb]
    · simp only [fieldsSet, if_neg hq]
      by_cases hq' : q1 = k'
      · subst hq'
        simp [fieldsGet, List.find?_cons]
      · have hb : (q1 == k') = false := beq_eq_false_iff_ne.mpr hq'
        simp only [fieldsGet, List.find?_cons, hb, cond_false]
        exact ih

theorem mem_keys_fieldsSet {f : List (String × JsVal)} {k k'' : String}
    {v : JsVal} :
    k'' ∈ (fieldsSet f k v).map Prod.fst ↔
      k'' ∈ f.map Prod.fst ∨ k'' = k := by
  induction f with
  | nil => simp [fieldsSet]
  | cons q rest ih =>
    obtain ⟨q1, q2⟩ := q
    by_cases hq : q1 = k
    · subst hq
      simp only [fieldsSet, if_pos rfl]
      constructor
      · intro hx
        rcases List.mem_cons.mp hx with hx | hx
        · exact Or.inl (List.mem_cons.mpr (Or.inl hx))
        · exact Or.inl (List.mem_cons.mpr (Or.inr hx))
      · intro hx
        rcases hx with hx | hx
        · exact hx
        · exact List.mem_cons.mpr (Or.inl hx)
    · simp only [fieldsSet, if_neg hq, List.map_cons, List.mem_cons, ih]
      tauto

theorem fieldsSet_keys_nodup {f : List (String × JsVal)} {k : String}
    {v : JsVal} (hnd : (f.map Prod.fst).Nodup) :
    ((fieldsSet f k v).map Prod.fst).Nodup := by
  induction f with
  | nil => simp [fieldsSet]
  | cons q rest ih =>
    obtain ⟨q1, q2⟩ := q
    by_cases hq : q1 = k
    · subst hq
      simpa [fieldsSet] using hnd
    · simp only [fieldsSet, if_neg hq, List.map_cons, List.nodup_cons]
      refine ⟨?_, ih (List.nodup_cons.mp hnd).2⟩
      intro hx
      rcases mem_keys_fieldsSet.mp hx with hx | hx
      · exact (List.nodup_cons.mp hnd).1 hx
      · exact hq hx

theorem mem_fieldsSet {f : List (String × JsVal)} {k : String}
    {v : JsVal} {p : String × JsVal} (hm : p ∈ fieldsSet f k v) :
    p ∈ f ∨ p.2 = v := by
  induction f with
  | nil =>
    simp only [fieldsSet] at hm
    rcases List.mem_cons.mp hm with hx | hx
    · exact Or.inr (by rw [hx])
    · cases hx
  | cons q rest ih =>
    obtain ⟨q1, q2⟩ := q
    by_cases hq : q1 = k
    · subst hq
      simp only [fieldsSet, if_pos rfl] at hm
      rcases List.mem_cons.mp hm with hx | hx
      · exact Or.inr (by rw [hx])
      · exact Or.inl (List.mem_cons.mpr (Or.inr hx))
    · simp only [fieldsSet, if_neg hq] at hm
      rcases List.mem_cons.mp hm with hx | hx
      · exact Or.inl (List.mem_cons.mpr (Or.inl hx))
      · rcases ih hx with hy | hy
        · exact Or.inl (List.mem_cons.mpr (Or.inr hy))
        · exact Or.inr hy

theorem mem_vals_fieldsSet {f : List (String × JsVal)} {k : String}
    {v u : JsVal} (hm : u ∈ (fieldsSet f k v).map Prod.snd) :
    u ∈ f.map Prod.snd ∨ u = v := by
  obtain ⟨p, hp, rfl⟩ := List.mem_map.mp hm
  rcases mem_fieldsSet hp with hx | hx
  · exact Or.inl (List.mem_map.mpr ⟨p, hx, rfl⟩)
  · exact Or.inr hx

theorem valDefined_of_regionExt {h₀ h : Heap} {v : JsVal} (hwf : h₀.WF)
    (hre : RegionExt h₀ h) (hv : valDefined h₀ v = true) :
    valDefined h v = true := by
  cases v with
  | addr a =>
    have ha : a < h₀.next := hwf.read_lt_of_isSome (by simpa [valDefined] using hv)
    simp only [valDefined, hre.2 a ha]
    simpa [valDefined] using hv
  | _ => rfl

theorem getProp_ext {h₀ h : Heap} {v : JsVal} (hwf : h₀.WF)
    (hre : RegionExt h₀ h) (hv : valDefined h₀ v = true) (k : String) :
    getProp h v k = getProp h₀ v k := by
  cases v with
  | addr a =>
    have ha : a < h₀.next := hwf.read_lt_of_isSome (by simpa [valDefined] using hv)
    simp only [getProp, hre.2 a ha]
  | _ => rfl

theorem getPropD_ext {h₀ h : Heap} {v : JsVal} (hwf : h₀.WF)
    (hre : RegionExt h₀ h) (hv : valDefined h₀ v = true) (k : String) :
    getPropD h v k = getPropD h₀ v k := by
  simp only [getPropD, getProp_ext hwf hre hv k]

theorem valDefined_getPropD {h : Heap} {v : JsVal} (hwf : h.WF)
    (hv : valDefined h v = true) (k : String) :
    valDefined h (getPropD h v k) = true := by
  cases v with
  | undef => rfl
  | null => rfl
  | bool b => rfl
  | num n => rfl
  | str s =>
    by_cases hk : k = "length" <;> simp [getPropD, getProp, hk, valDefined]
  | addr a =>
    have hs : (h.read a).isSome = true := by simpa [valDefined] using hv
    obtain ⟨c, hc⟩ := Option.isSome_iff_exists.mp hs
    have hvals := hwf.read_vals hc
    cases c with
    | obj fields =>
      simp only [getPropD, getProp, hc]
      cases hg : fieldsGet fields k with
      | none => rfl
      | some w =>
        have hw : w ∈ cellVals (.obj fields) :=
          List.mem_map.mpr ⟨(k, w), fieldsGet_mem hg, rfl⟩
        simpa using hvals w hw
    | arr elems props =>
      simp only [getPropD, getProp, hc]
      by_cases hk : k = "length"
      · simp [hk, valDefined]
      · simp only [if_neg hk]
        have hprop : valDefined h ((fieldsGet props k).getD .undef) = true := by
          cases hg : fieldsGet props k with
          | none => rfl
          | some w =>
            have hw : w ∈ cellVals (.arr elems props) := by
              simp only [cellVals, List.mem_append]
              exact Or.inr (List.mem_map.mpr ⟨(k, w), fieldsGet_mem hg, rfl⟩)
            simpa using hvals w hw
        cases hn : jsToNat? k with
        | none => exact hprop
        | some i =>
          by_cases hci : isCanonicalIndex k i = true
          · simp only [hci, if_true]
            cases hgi : elems[i]? with
            | none => simp [List.getD, hgi, valDefined]
            | some u =>
              have hu : u ∈ elems := by
                apply List.get?_mem
                rw [List.get?_eq_getElem?]
                exact hgi
              have hud : valDefined h u = true := hvals u (by
                simp only [cellVals, List.mem_append]
                exact Or.inl hu)
              simpa [List.getD, hgi] using hud
          · simp only [Bool.not_eq_true] at hci
            simp only [hci, Bool.false_eq_true, if_false]
            exact hprop

theorem valDefined_flatGet {m : Model} (hwf : Model.WF m) (k : String) :
    valDefined m.heap (flatGet m k) = true := by
  unfold flatGet
  cases hg : lookupStr m.attrs k with
  | none => rfl
  | some v =>
    have hv : (k, v) ∈ m.attrs := fieldsGet_mem (lookupStr_eq_fieldsGet ▸ hg)
    simpa using hwf.2 (k, v) hv

theorem valDefined_walk {h : Heap} {v : JsVal} (hwf : h.WF)
    (hv : valDefined h v = true) (segs : List String) :
    valDefined h (walk h v segs) = true := by
  induction segs generalizing v with
  | nil => exact hv
  | cons pc rest ih =>
    by_cases hn : nullOrUndefined v = true
    · simp only [walk, hn, if_true]
      exact hv
    · simp only [Bool.not_eq_true] at hn
      simp only [walk, hn, Bool.false_eq_true, if_false]
      exact ih (valDefined_getPropD hwf hv pc)

theorem walk_ext {h₀ h : Heap} {v : JsVal} (hwf : h₀.WF)
    (hre : RegionExt h₀ h) (hv : valDefined h₀ v = true)
    (segs : List String) : walk h v segs = walk h₀ v segs := by
  induction segs generalizing v with
  | nil => rfl
  | cons pc rest ih =>
    by_cases hn : nullOrUndefined v = true
    · simp [walk, hn]
    · simp only [Bool.not_eq_true] at hn
      simp only [walk, hn, Bool.false_eq_true, if_false,
        getPropD_ext hwf hre hv pc]
      exact ih (valDefined_getPropD hwf hv pc)

theorem mget_ext {m : Model} {h : Heap} (hwf : Model.WF m)
    (hre : RegionExt m.heap h) (attrName : String) :
    mget { m with heap := h } attrName = mget m attrName := by
  unfold mget
  cases hs : splitDots attrName with
  | nil => rfl
  | cons firstPc rest =>
    cases rest with
    | nil => rfl
    | cons s rest' =>
      have hfg : flatGet { m with heap := h } firstPc = flatGet m firstPc := rfl
      simp only [hfg]
      exact walk_ext hwf.1 hre (valDefined_flatGet hwf firstPc) _

theorem valDefined_mget {m : Model} (hwf : Model.WF m) (attrName : String) :
    valDefined m.heap (mget m attrName) = true := by
  unfold mget
  cases hs : splitDots attrName with
  | nil => exact valDefined_flatGet hwf attrName
  | cons firstPc rest =>
    cases rest with
    | nil => exact valDefined_flatGet hwf attrName
    | cons s rest' =>
      exact valDefined_walk hwf.1 (valDefined_flatGet hwf firstPc) _

theorem jsEqListWith_congr {f g : JsVal → JsVal → Bool} (ea : List JsVal) :
    ∀ (eb : List JsVal), (∀ v ∈ ea, ∀ w ∈ eb, f v w = g v w) →
      jsEqListWith f ea eb = jsEqListWith g ea eb := by
  induction ea with
  | nil => intro eb _; cases eb <;> rfl
  | cons v vs ih =>
    intro eb hfg
    cases eb with
    | nil => rfl
    | cons w ws =>
      simp only [jsEqListWith]
      rw [hfg v (by simp) w (by simp),
        ih ws (fun v' hv w' hw => hfg v' (by simp [hv]) w' (by simp [hw]))]

theorem jsEqFieldsWith_congr {f g : JsVal → JsVal → Bool}
    {fb : List (String × JsVal)} (fa : List (String × JsVal))
    (hfg : ∀ p ∈ fa, ∀ q ∈ fb, f p.2 q.2 = g p.2 q.2) :
    jsEqFieldsWith f fb fa = jsEqFieldsWith g fb fa := by
  induction fa with
  | nil => rfl
  | cons p rest ih =>
    obtain ⟨k, v⟩ := p
    simp only [jsEqFieldsWith]
    cases hg : fieldsGet fb k with
    | none => rfl
    | some w =>
      show (f v w && jsEqFieldsWith f fb rest)
          = (g v w && jsEqFieldsWith g fb rest)
      rw [hfg (k, v) (by simp) (k, w) (fieldsGet_mem hg),
        ih (fun p' hp q' hq => hfg p' (by simp [hp]) q' hq)]

theorem jsEqual_ext {h₀ h : Heap} (hwf : h₀.WF) (hre : RegionExt h₀ h) :
    ∀ (fuel : Nat) (x y : JsVal), valDefined h₀ x = true →
      valDefined h₀ y = true → jsEqual fuel h x y = jsEqual fuel h₀ x y := by
  intro fuel
  induction fuel with
  | zero => intros; rfl
  | succ fuel ih =>
    intro x y hx hy
    cases x <;> cases y <;> try rfl
    case addr.addr a b =>
      by_cases hab : a = b
      · simp [jsEqual, hab]
      · have hra : h.read a = h₀.read a :=
          hre.2 a (hwf.read_lt_of_isSome (by simpa [valDefined] using hx))
        have hrb : h.read b = h₀.read b :=
          hre.2 b (hwf.read_lt_of_isSome (by simpa [valDefined] using hy))
        simp only [jsEqual, if_neg hab, hra, hrb]
        cases hca : h₀.read a with
        | none => rfl
        | some ca =>
          cases hcb : h₀.read b with
          | none => cases ca <;> rfl
          | some cb =>
            have hvalsa := hwf.read_vals hca
            have hvalsb := hwf.read_vals hcb
            cases ca with
            | obj fa =>
              cases cb with
              | obj fbb =>
                show (fa.length == fbb.length
                      && jsEqFieldsWith (jsEqual fuel h) fbb fa)
                    = (fa.length == fbb.length
                      && jsEqFieldsWith (jsEqual fuel h₀) fbb fa)
                congr 1
                apply jsEqFieldsWith_congr
                intro p hp q hq
                exact ih p.2 q.2
                  (hvalsa p.2 (List.mem_map.mpr ⟨p, hp, rfl⟩))
                  (hvalsb q.2 (List.mem_map.mpr ⟨q, hq, rfl⟩))
              | arr _ _ => rfl
            | arr ea pa =>
              cases cb with
              | obj _ => rfl
              | arr eb pb =>
                show (ea.length == eb.length
                      && jsEqListWith (jsEqual fuel h) ea eb)
                    = (ea.length == eb.length
                      && jsEqListWith (jsEqual fuel h₀) ea eb)
                congr 1
                apply jsEqListWith_congr
                intro v hv w hw
                exact ih v w
                  (hvalsa v (by
                    simp only [cellVals, List.mem_append]; exact Or.inl hv))
                  (hvalsb w (by
                    simp only [cellVals, List.mem_append]; exact Or.inl hw))

theorem jsEqual_refl {fuel : Nat} (hf : 1 ≤ fuel) (h : Heap) (v : JsVal) :
    jsEqual fuel h v v = true := by
  cases fuel with
  | zero => omega
  | succ f => cases v <;> simp [jsEqual]

theorem jsEqListWith_refl {h : Heap} {fuel : Nat} (hf : 1 ≤ fuel)
    (ea : List JsVal) : jsEqListWith (jsEqual fuel h) ea ea = true := by
  induction ea with
  | nil => rfl
  | cons v vs ih => simp [jsEqListWith, jsEqual_refl hf, ih]

theorem jsEqFieldsWith_all {h : Heap} {fuel : Nat} (hf : 1 ≤ fuel)
    (fields : List (String × JsVal)) :
    ∀ (fa : List (String × JsVal)),
      (∀ p ∈ fa, fieldsGet fields p.1 = some p.2) →
      jsEqFieldsWith (jsEqual fuel h) fields fa = true := by
  intro fa
  induction fa with
  | nil => intro _; rfl
  | cons p rest ih =>
    intro hget
    obtain ⟨k, v⟩ := p
    have hk : fieldsGet fields k = some v := hget (k, v) (by simp)
    simp only [jsEqFieldsWith, hk, jsEqual_refl hf, Bool.true_and]
    exact ih (fun p' hp => hget p' (by simp [hp]))

theorem jsEqFieldsWith_eq_true_iff {eqf : JsVal → JsVal → Bool}
    {fb : List (String × JsVal)} {fa : List (String × JsVal)} :
    jsEqFieldsWith eqf fb fa = true ↔
      ∀ p ∈ fa, ∃ w, fieldsGet fb p.1 = some w ∧ eqf p.2 w = true := by
  induction fa with
  | nil => simp [jsEqFieldsWith]
  | cons p rest ih =>
    obtain ⟨k, v⟩ := p
    simp only [jsEqFieldsWith]
    cases hg : fieldsGet fb k with
    | none =>
      simp only [Bool.false_eq_true, false_iff]
      intro hall
      obtain ⟨w, hw, _⟩ := hall (k, v) (by simp)
      rw [hg] at hw
      cases hw
    | some w =>
      show (eqf v w && jsEqFieldsWith eqf fb rest) = true ↔ _
      rw [Bool.and_eq_true, ih]
      constructor
      · rintro ⟨h1, h2⟩ p hp
        rcases List.mem_cons.mp hp with hx | hx
        · subst hx
          exact ⟨w, hg, h1⟩
        · exact h2 p hx
      · intro hall
        refine ⟨?_, fun p hp => hall p (by simp [hp])⟩
        obtain ⟨w', hw', he⟩ := hall (k, v) (by simp)
        rw [hg] at hw'
        cases hw'
        exact he

theorem jsEqListWith_flip {f f' : JsVal → JsVal → Bool}
    (ea : List JsVal) :
    ∀ (eb : List JsVal), (∀ v ∈ ea, ∀ w ∈ eb, f v w = true → f' w v = true) →
    jsEqListWith f ea eb = true → jsEqListWith f' eb ea = true := by
  induction ea with
  | nil => intro eb _ hq; cases eb with
    | nil => rfl
    | cons _ _ => simp [jsEqListWith] at hq
  | cons v vs ih =>
    intro eb hsym hq
    cases eb with
    | nil => simp [jsEqListWith] at hq
    | cons w ws =>
      simp only [jsEqListWith, Bool.and_eq_true] at hq ⊢
      exact ⟨hsym v (by simp) w (by simp) hq.1,
        ih ws (fun v' hv w' hw => hsym v' (by simp [hv]) w' (by simp [hw]))
          hq.2⟩

theorem jsEqual_addr_true_elim {fuel : Nat} {h : Heap} {a b : Addr}
    (hab : a ≠ b)
    (hq : jsEqual (fuel + 1) h (.addr a) (.addr b) = true) :
    (∃ fa fb, h.read a = some (.obj fa) ∧ h.read b = some (.obj fb) ∧
      fa.length = fb.length ∧
      jsEqFieldsWith (jsEqual fuel h) fb fa = true) ∨
    (∃ ea pa eb pb, h.read a = some (.arr ea pa) ∧
      h.read b = some (.arr eb pb) ∧ ea.length = eb.length ∧
      jsEqListWith (jsEqual fuel h) ea eb = true) := by
  simp only [jsEqual, if_neg hab] at hq
  cases hca : h.read a with
  | none => rw [hca] at hq; cases hcb : h.read b <;> rw [hcb] at hq <;>
      simp at hq
  | some ca =>
    rw [hca] at hq
    cases hcb : h.read b with
    | none => rw [hcb] at hq; cases ca <;> simp at hq
    | some cb =>
      rw [hcb] at hq
      cases ca with
      | obj fa =>
        cases cb with
        | obj fb =>
          have hq' : (fa.length == fb.length
              && jsEqFieldsWith (jsEqual fuel h) fb fa) = true := hq
          rw [Bool.and_eq_true, beq_iff_eq] at hq'
          exact Or.inl ⟨fa, fb, rfl, rfl, hq'.1, hq'.2⟩
        | arr _ _ => simp at hq
      | arr ea pa =>
        cases cb with
        | obj _ => simp at hq
        | arr eb pb =>
          have hq' : (ea.length == eb.length
              && jsEqListWith (jsEqual fuel h) ea eb) = true := hq
          rw [Bool.and_eq_true, beq_iff_eq] at hq'
          exact Or.inr ⟨ea, pa, eb, pb, rfl, rfl, hq'.1, hq'.2⟩

theorem jsEqual_addr_of_obj {fuel : Nat} {h : Heap} {a b : Addr}
    {fa fb : List (String × JsVal)} (hab : a ≠ b)
    (hra : h.read a = some (.obj fa)) (hrb : h.read b = some (.obj fb))
    (hlen : fa.length = fb.length)
    (hfields : jsEqFieldsWith (jsEqual fuel h) fb fa = true) :
    jsEqual (fuel + 1) h (.addr a) (.addr b) = true := by
  simp only [jsEqual, if_neg hab, hra, hrb]
  show (fa.length == fb.length && jsEqFieldsWith (jsEqual fuel h) fb fa)
      = true
  rw [Bool.and_eq_true, beq_iff_eq]
  exact ⟨hlen, hfields⟩

theorem jsEqual_addr_of_arr {fuel : Nat} {h : Heap} {a b : Addr}
    {ea eb : List JsVal} {pa pb : List (String × JsVal)} (hab : a ≠ b)
    (hra : h.read a = some (.arr ea pa)) (hrb : h.read b = some (.arr eb pb))
    (hlen : ea.length = eb.length)
    (helems : jsEqListWith (jsEqual fuel h) ea eb = true) :
    jsEqual (fuel + 1) h (.addr a) (.addr b) = true := by
  simp only [jsEqual, if_neg hab, hra, hrb]
  show (ea.length == eb.length && jsEqListWith (jsEqual fuel h) ea eb)
      = true
  rw [Bool.and_eq_true, beq_iff_eq]
  exact ⟨hlen, helems⟩

theorem jsEqual_symm {h : Heap} (hwf : h.WF) :
    ∀ (fuel : Nat) (x y : JsVal),
      jsEqual fuel h x y = true → jsEqual fuel h y x = true := by
  intro fuel
  induction fuel with
  | zero => intro x y hq; simp [jsEqual] at hq
  | succ fuel ih =>
    intro x y hq
    cases x <;> cases y <;>
      first
        | (exfalso; simp [jsEqual] at hq; done)
        | (simp [jsEqual]; done)
        | (simp only [jsEqual, beq_iff_eq] at hq ⊢;
           first | exact hq.symm | trivial)
        | skip
    case addr.addr a b =>
      by_cases hab : a = b
      · subst hab; exact hq
      · have hba : b ≠ a := fun hx => hab hx.symm
        rcases jsEqual_addr_true_elim hab hq with
          ⟨fa, fb, hra, hrb, hlen, hfields⟩ |
          ⟨ea, pa, eb, pb, hra, hrb, hlen, helems⟩
        · have hndA : (fa.map Prod.fst).Nodup := by
            have hx := hwf.read_nodup hra
            simpa [cellKeysNodup] using hx
          have hndB : (fb.map Prod.fst).Nodup := by
            have hx := hwf.read_nodup hrb
            simpa [cellKeysNodup] using hx
          have hall := jsEqFieldsWith_eq_true_iff.mp hfields
          have hsub : fa.map Prod.fst ⊆ fb.map Prod.fst := by
            intro k hk
            obtain ⟨p, hp, rfl⟩ := List.mem_map.mp hk
            obtain ⟨w, hw, _⟩ := hall p hp
            exact List.mem_map.mpr ⟨(p.1, w), fieldsGet_mem hw, rfl⟩
          have hperm : List.Perm (fa.map Prod.fst) (fb.map Prod.fst) :=
            (List.subperm_of_subset hndA hsub).perm_of_length_le
              (by simp [hlen])
          apply jsEqual_addr_of_obj hba hrb hra hlen.symm
          rw [jsEqFieldsWith_eq_true_iff]
          intro q hq'
          have hkA : q.1 ∈ fa.map Prod.fst :=
            hperm.mem_iff.mpr (List.mem_map.mpr ⟨q, hq', rfl⟩)
          obtain ⟨p, hp, hp1⟩ := List.mem_map.mp hkA
          obtain ⟨w, hw, he⟩ := hall p hp
          have h2 : fieldsGet fb q.1 = some q.2 := by
            obtain ⟨q1, q2⟩ := q
            exact fieldsGet_of_mem_nodup hndB hq'
          rw [hp1] at hw
          have hwq : w = q.2 := Option.some.inj (hw.symm.trans h2)
          refine ⟨p.2, ?_, ?_⟩
          · rw [← hp1]
            obtain ⟨p1, p2⟩ := p
            exact fieldsGet_of_mem_nodup hndA hp
          · exact ih _ _ (hwq ▸ he)
        · apply jsEqual_addr_of_arr hba hrb hra hlen.symm
          exact jsEqListWith_flip ea eb
            (fun v _ w _ hvw => ih v w hvw) helems

theorem jsClone_obj {h : Heap} {a : Addr} {fields : List (String × JsVal)}
    (hc : h.read a = some (.obj fields)) :
    jsClone h (.addr a) = (.addr h.next, (h.alloc (.obj fields)).2) := by
  simp [jsClone, hc, Heap.alloc]

theorem jsClone_arr {h : Heap} {a : Addr} {elems : List JsVal}
    {props : List (String × JsVal)}
    (hc : h.read a = some (.arr elems props)) :
    jsClone h (.addr a) = (.addr h.next, (h.alloc (.arr elems [])).2) := by
  simp [jsClone, hc, Heap.alloc]

/-- Transfer of a true deep-equality verdict across `_.clone`: if `x` is
deep-equal to `v`, then `x` is deep-equal to the shallow clone of `v` in
the extended heap, at the same fuel (two levels suffice for the identical
reference to survive the copy, since the clone shares all its field
values with the original). -/
theorem jsEqual_clone_of_true {h : Heap} (hwf : h.WF) {fuel : Nat}
    (hf : 2 ≤ fuel) {x v : JsVal} (hx : valDefined h x = true)
    (heq : jsEqual fuel h x v = true) :
    jsEqual fuel (jsClone h v).2 x (jsClone h v).1 = true := by
  obtain ⟨f, rfl⟩ : ∃ f, fuel = f + 1 := ⟨fuel - 1, by omega⟩
  have hf1 : 1 ≤ f := by omega
  cases v with
  | undef => simpa [jsClone] using heq
  | null => simpa [jsClone] using heq
  | bool b => simpa [jsClone] using heq
  | num n => simpa [jsClone] using heq
  | str s => simpa [jsClone] using heq
  | addr a =>
    cases hc : h.read a with
    | none => simpa [jsClone, hc] using heq
    | some c =>
      have halt : a < h.next := hwf.read_lt hc
      have hane : a ≠ h.next := Nat.ne_of_lt halt
      cases c with
      | obj fields =>
        rw [jsClone_obj hc]
        have hre : RegionExt h (h.alloc (.obj fields)).2 :=
          RegionExt.alloc (RegionExt.refl h) _
        have hra : (h.alloc (.obj fields)).2.read a = some (.obj fields) :=
          (Heap.read_alloc_ne h _ hane).trans hc
        have hrn : (h.alloc (.obj fields)).2.read h.next
            = some (.obj fields) := Heap.read_alloc_self h _
        cases x <;> try (exfalso; simp [jsEqual] at heq; done)
        case addr b =>
          by_cases hba : b = a
          · subst hba
            have hnd : (fields.map Prod.fst).Nodup := by
              have hy := hwf.read_nodup hc
              simpa [cellKeysNodup] using hy
            exact jsEqual_addr_of_obj hane hra hrn rfl
              (jsEqFieldsWith_all hf1 fields fields (fun p hp => by
                obtain ⟨p1, p2⟩ := p
                exact fieldsGet_of_mem_nodup hnd hp))
          · rcases jsEqual_addr_true_elim hba heq with
              ⟨fb', fa', hrb, hra', hlen, hfields⟩ |
              ⟨eb', pb', ea', pa', hrb, hra', hlen, helems⟩
            · rw [hc] at hra'
              have hfa : fa' = fields :=
                (JsCell.obj.inj (Option.some.inj hra')).symm
              rw [hfa] at hfields hlen
              have hbn : b ≠ h.next := Nat.ne_of_lt (hwf.read_lt hrb)
              have hrb1 : (h.alloc (.obj fields)).2.read b
                  = some (.obj fb') :=
                (Heap.read_alloc_ne h _ hbn).trans hrb
              apply jsEqual_addr_of_obj hbn hrb1 hrn hlen
              rw [jsEqFieldsWith_congr fb' (fun p hp q hq =>
                jsEqual_ext hwf hre f p.2 q.2
                  (hwf.read_vals hrb p.2 (List.mem_map.mpr ⟨p, hp, rfl⟩))
                  (hwf.read_vals hc q.2 (List.mem_map.mpr ⟨q, hq, rfl⟩)))]
              exact hfields
            · rw [hc] at hra'
              simp at hra'
      | arr elems props =>
        rw [jsClone_arr hc]
        have hre : RegionExt h (h.alloc (.arr elems [])).2 :=
          RegionExt.alloc (RegionExt.refl h) _
        have hra : (h.alloc (.arr elems [])).2.read a
            = some (.arr elems props) :=
          (Heap.read_alloc_ne h _ hane).trans hc
        have hrn : (h.alloc (.arr elems [])).2.read h.next
            = some (.arr elems []) := Heap.read_alloc_self h _
        cases x <;> try (exfalso; simp [jsEqual] at heq; done)
        case addr b =>
          by_cases hba : b = a
          · subst hba
            exact jsEqual_addr_of_arr hane hra hrn rfl
              (jsEqListWith_refl hf1 elems)
          · rcases jsEqual_addr_true_elim hba heq with
              ⟨fb', fa', hrb, hra', hlen, hfields⟩ |
              ⟨eb', pb', ea', pa', hrb, hra', hlen, helems⟩
            · rw [hc] at hra'
              simp at hra'
            · rw [hc] at hra'
              have hea : ea' = elems :=
                (JsCell.arr.inj (Option.some.inj hra')).1.symm
              rw [hea] at helems hlen
              have hbn : b ≠ h.next := Nat.ne_of_lt (hwf.read_lt hrb)
              have hrb1 : (h.alloc (.arr elems [])).2.read b
                  = some (.arr eb' pb') :=
                (Heap.read_alloc_ne h _ hbn).trans hrb
              apply jsEqual_addr_of_arr hbn hrb1 hrn hlen
              rw [jsEqListWith_congr eb' elems (fun v' hv w' hw =>
                jsEqual_ext hwf hre f v' w'
                  (hwf.read_vals hrb v' (by
                    simp only [cellVals, List.mem_append]
                    exact Or.inl hv))
                  (hwf.read_vals hc w' (by
                    simp only [cellVals, List.mem_append]
                    exact Or.inl hw)))]
              exact helems

theorem getProp_addr_ok (h : Heap) (t : Addr) (k : String) :
    ∃ tv, getProp h (.addr t) k = .ok tv := by
  simp only [getProp]
  cases h.read t with
  | none => exact ⟨_, rfl⟩
  | some c =>
    cases c with
    | obj fields => exact ⟨_, rfl⟩
    | arr elems props =>
      by_cases hk : k = "length"
      · simp only [if_pos hk]
        exact ⟨_, rfl⟩
      · simp only [if_neg hk]
        cases jsToNat? k with
        | none => exact ⟨_, rfl⟩
        | some i =>
          by_cases hci : isCanonicalIndex k i = true
          · simp only [hci, if_true]
            exact ⟨_, rfl⟩
          · simp only [Bool.not_eq_true] at hci
            simp only [hci, Bool.false_eq_true, if_false]
            exact ⟨_, rfl⟩

theorem setProp_addr_spec (h : Heap) (t : Addr) (k : String)
    (value : JsVal) :
    ∃ h', setProp h (.addr t) k value = .ok h' ∧ h'.next = h.next ∧
      ∀ a, a ≠ t → h'.read a = h.read a := by
  simp only [setProp]
  cases h.read t with
  | none => exact ⟨h, rfl, rfl, fun _ _ => rfl⟩
  | some c =>
    cases c with
    | obj fields =>
      exact ⟨_, rfl, rfl, fun a ha => Heap.read_write_ne h _ ha⟩
    | arr elems props =>
      by_cases hk : k = "length"
      · simp only [if_pos hk]
        exact ⟨h, rfl, rfl, fun _ _ => rfl⟩
      · simp only [if_neg hk]
        cases jsToNat? k with
        | none => exact ⟨_, rfl, rfl, fun a ha => Heap.read_write_ne h _ ha⟩
        | some i =>
          by_cases hci : isCanonicalIndex k i = true
          · simp only [hci, if_true]
            by_cases hlt : i < elems.length
            · simp only [if_pos hlt]
              exact ⟨_, rfl, rfl, fun a ha => Heap.read_write_ne h _ ha⟩
            · simp only [if_neg hlt]
              exact ⟨_, rfl, rfl, fun a ha => Heap.read_write_ne h _ ha⟩
          · simp only [Bool.not_eq_true] at hci
            simp only [hci, Bool.false_eq_true, if_false]
            exact ⟨_, rfl, rfl, fun a ha => Heap.read_write_ne h _ ha⟩

/-- The heap carried by a `setWalk` outcome (final heap on success, heap
at the throw on error). -/
def setWalkHeap : Except Heap (JsVal × String × Heap) → Heap
  | .error h => h
  | .ok (_, _, h) => h

theorem regionExt_of_local {h₀ h h' : Heap} {t : Addr}
    (hre : RegionExt h₀ h) (ht : h₀.next ≤ t) (hn : h'.next = h.next)
    (hloc : ∀ a, a ≠ t → h'.read a = h.read a) : RegionExt h₀ h' :=
  ⟨by rw [hn]; exact hre.1,
    fun a ha =>
      (hloc a (Nat.ne_of_lt (lt_of_lt_of_le ha ht))).trans (hre.2 a ha)⟩

theorem setWalk_region {h₀ : Heap} {t : Addr} (ht : h₀.next ≤ t)
    (pcs : List String) :
    ∀ (ptr : JsVal) (h : Heap), RegionExt h₀ h →
      RegionExt h₀ (setWalkHeap (setWalk (.addr t) pcs ptr h)) := by
  induction pcs with
  | nil => intro ptr h hre; exact hre
  | cons nextPc rest ih =>
    intro ptr h hre
    cases rest with
    | nil => exact hre
    | cons s rest' =>
      obtain ⟨tv, hg⟩ := getProp_addr_ok h t nextPc
      simp only [setWalk, hg]
      by_cases hty : jsTypeofObject tv = true
      · simp only [hty, if_true]
        exact ih tv h hre
      · simp only [Bool.not_eq_true] at hty
        simp only [hty, Bool.false_eq_true, if_false]
        obtain ⟨h2, hsp, hn2, hloc2⟩ :=
          setProp_addr_spec (h.alloc (.obj [])).2 t nextPc
            (.addr (h.alloc (.obj [])).1)
        simp only [hsp]
        have hre2 : RegionExt h₀ h2 :=
          regionExt_of_local (RegionExt.alloc hre (.obj [])) ht
            (by rw [hn2, Heap.next_alloc]) hloc2
        obtain ⟨tv2, hg2⟩ := getProp_addr_ok h2 t nextPc
        simp only [hg2]
        exact ih tv2 h2 hre2

theorem splitDotsAux_ne_nil : ∀ (l acc : List Char),
    splitDotsAux l acc ≠ [] := by
  intro l
  induction l with
  | nil => intro acc h; simp [splitDotsAux] at h
  | cons ch rest ih =>
    intro acc h
    by_cases hch : ch = '.'
    · simp [splitDotsAux, hch] at h
    · rw [splitDotsAux, if_neg hch] at h
      exact ih (ch :: acc) h

theorem splitDots_ne_nil (s : String) : splitDots s ≠ [] :=
  splitDotsAux_ne_nil s.data []

theorem splitDotsAux_singleton : ∀ (l acc : List Char) (x : String),
    splitDotsAux l acc = [x] → x = String.mk (acc.reverse ++ l) := by
  intro l
  induction l with
  | nil =>
    intro acc x hx
    simp only [splitDotsAux] at hx
    rw [List.cons.injEq] at hx
    rw [← hx.1]
    simp
  | cons ch rest ih =>
    intro acc x hx
    by_cases hch : ch = '.'
    · rw [splitDotsAux, if_pos hch] at hx
      rw [List.cons.injEq] at hx
      exact absurd hx.2 (splitDotsAux_ne_nil rest [])
    · rw [splitDotsAux, if_neg hch] at hx
      have hx2 := ih (ch :: acc) x hx
      rw [hx2]
      have harr : (ch :: acc).reverse ++ rest = acc.reverse ++ ch :: rest := by
        simp
      rw [harr]

theorem splitDots_eq_singleton {s x : String} (hx : splitDots s = [x]) :
    x = s := by
  have h1 := splitDotsAux_singleton s.data [] x hx
  simpa using h1

theorem regionExt_clone (h : Heap) (v : JsVal) :
    RegionExt h (jsClone h v).2 := by
  cases v with
  | addr a =>
    cases hc : h.read a with
    | none => simp only [jsClone, hc]; exact RegionExt.refl h
    | some c =>
      cases c with
      | obj fields =>
        rw [jsClone_obj hc]
        exact RegionExt.alloc (RegionExt.refl h) _
      | arr elems props =>
        rw [jsClone_arr hc]
        exact RegionExt.alloc (RegionExt.refl h) _
  | undef => exact RegionExt.refl h
  | null => exact RegionExt.refl h
  | bool b => exact RegionExt.refl h
  | num n => exact RegionExt.refl h
  | str s => exact RegionExt.refl h

/-- One `set` pair whose value is deep-equal to the currently stored value
is skipped: the pair leaves the attribute bag, the event trace and every
previously existing heap cell unchanged and does not switch the
`triggerChange` flag on (when the walk trips over a `null` intermediate it
throws a `TypeError` before reaching the comparison, still without any
mutation or event). -/
theorem setOnePair_skip (eqFuel : Nat) (hf : 2 ≤ eqFuel)
    (options silentOptions : Opts) (m : Model) (hwf : Model.WF m)
    (tc : Bool) (p : String) (v' : JsVal)
    (hv' : valDefined m.heap v' = true)
    (heq : jsEqual eqFuel m.heap (mget m p) v' = true) :
    (∃ m', setOnePair eqFuel options silentOptions m tc p v' = .ok m' tc ∧
      m'.attrs = m.attrs ∧ m'.events = m.events ∧
      RegionExt m.heap m'.heap) ∨
    (∃ m', setOnePair eqFuel options silentOptions m tc p v'
        = .thrown m' ∧
      m'.attrs = m.attrs ∧ m'.events = m.events ∧
      RegionExt m.heap m'.heap) := by
  cases hs : splitDots p with
  | nil => exact absurd hs (splitDots_ne_nil p)
  | cons firstPc rest =>
    cases rest with
    | nil =>
      -- single-piece path: firstPc is the whole attribute
      have hfp : firstPc = p := splitDots_eq_singleton hs
      rw [hfp] at hs
      have hmg : mget m p = flatGet m p := by
        simp only [mget, hs]
      rw [hmg] at heq
      have hsym : jsEqual eqFuel m.heap v' (flatGet m p) = true :=
        jsEqual_symm hwf.1 eqFuel _ _ heq
      have hguard :=
        jsEqual_clone_of_true hwf.1 hf hv' hsym
      rcases hcl : jsClone m.heap (flatGet m p) with ⟨tlv, h1⟩
      rw [hcl] at hguard
      left
      refine ⟨{ m with heap := h1 }, ?_, rfl, rfl, ?_⟩
      · simp only [setOnePair, hs, hcl, List.headD, List.tail]
        rw [if_pos hguard]
      · have := regionExt_clone m.heap (flatGet m p)
        rwa [hcl] at this
    | cons s rest' =>
      -- multi-piece path
      rcases hcl : jsClone m.heap (flatGet m firstPc) with ⟨tlv, h1⟩
      have hre1 : RegionExt m.heap h1 := by
        have := regionExt_clone m.heap (flatGet m firstPc)
        rwa [hcl] at this
      -- the committed walk target: either null (throws) or a fresh address
      by_cases hnull : flatGet m firstPc = JsVal.null
      · -- toSet is null: for three or more pieces the walk's first read
        -- throws; for exactly two pieces the loop does not run and the
        -- deep-equality guard skips the pair
        rw [hnull] at hcl
        simp only [jsClone] at hcl
        obtain ⟨rfl, rfl⟩ : JsVal.null = tlv ∧ m.heap = h1 := by
          constructor <;> [exact congrArg Prod.fst hcl;
            exact congrArg Prod.snd hcl]
        cases rest' with
        | nil =>
          left
          have hguard : jsEqual eqFuel m.heap
              (mget { m with heap := m.heap } p) v' = true := heq
          refine ⟨{ m with heap := m.heap }, ?_, rfl, rfl,
            RegionExt.refl _⟩
          simp only [setOnePair, hs, List.headD, List.tail, hnull,
            jsClone, jsTypeofObject, if_true, setWalk]
          rw [if_pos hguard]
        | cons s2 rest'' =>
          right
          refine ⟨{ m with heap := m.heap }, ?_, rfl, rfl,
            RegionExt.refl _⟩
          simp only [setOnePair, hs, List.headD, List.tail, hnull,
            jsClone, jsTypeofObject, if_true, setWalk, getProp]
      · -- toSet is a freshly allocated or cloned cell at m.heap.next
        have hts : ∃ h2 : Heap,
            (if jsTypeofObject tlv = true then (tlv, h1)
              else
                let z := h1.alloc (.obj [])
                (JsVal.addr z.1, z.2))
              = (JsVal.addr m.heap.next, h2) ∧ RegionExt m.heap h2 := by
          cases hfg : flatGet m firstPc with
          | null => exact absurd hfg hnull
          | addr a =>
            have hdef : (m.heap.read a).isSome = true := by
              have := valDefined_flatGet hwf firstPc
              rw [hfg] at this
              simpa [valDefined] using this
            obtain ⟨c, hc⟩ := Option.isSome_iff_exists.mp hdef
            cases c with
            | obj fields =>
              rw [hfg, jsClone_obj hc] at hcl
              obtain ⟨h1a, h1b⟩ : JsVal.addr m.heap.next = tlv ∧
                  (m.heap.alloc (.obj fields)).2 = h1 :=
                ⟨congrArg Prod.fst hcl, congrArg Prod.snd hcl⟩
              refine ⟨h1, ?_, hre1⟩
              rw [← h1a]
              simp [jsTypeofObject]
            | arr elems props =>
              rw [hfg, jsClone_arr hc] at hcl
              obtain ⟨h1a, h1b⟩ : JsVal.addr m.heap.next = tlv ∧
                  (m.heap.alloc (.arr elems [])).2 = h1 :=
                ⟨congrArg Prod.fst hcl, congrArg Prod.snd hcl⟩
              refine ⟨h1, ?_, hre1⟩
              rw [← h1a]
              simp [jsTypeofObject]
          | undef =>
            rw [hfg] at hcl
            simp only [jsClone] at hcl
            obtain ⟨h1a, h1b⟩ : JsVal.undef = tlv ∧ m.heap = h1 :=
              ⟨congrArg Prod.fst hcl, congrArg Prod.snd hcl⟩
            rw [← h1a, ← h1b]
            refine ⟨(m.heap.alloc (.obj [])).2,
              by simp [jsTypeofObject, Heap.alloc],
              RegionExt.alloc (RegionExt.refl _) _⟩
          | bool b =>
            rw [hfg] at hcl
            simp only [jsClone] at hcl
            obtain ⟨h1a, h1b⟩ : JsVal.bool b = tlv ∧ m.heap = h1 :=
              ⟨congrArg Prod.fst hcl, congrArg Prod.snd hcl⟩
            rw [← h1a, ← h1b]
            refine ⟨(m.heap.alloc (.obj [])).2,
              by simp [jsTypeofObject, Heap.alloc],
              RegionExt.alloc (RegionExt.refl _) _⟩
          | num n =>
            rw [hfg] at hcl
            simp only [jsClone] at hcl
            obtain ⟨h1a, h1b⟩ : JsVal.num n = tlv ∧ m.heap = h1 :=
              ⟨congrArg Prod.fst hcl, congrArg Prod.snd hcl⟩
            rw [← h1a, ← h1b]
            refine ⟨(m.heap.alloc (.obj [])).2,
              by simp [jsTypeofObject, Heap.alloc],
              RegionExt.alloc (RegionExt.refl _) _⟩
          | str sv =>
            rw [hfg] at hcl
            simp only [jsClone] at hcl
            obtain ⟨h1a, h1b⟩ : JsVal.str sv = tlv ∧ m.heap = h1 :=
              ⟨congrArg Prod.fst hcl, congrArg Prod.snd hcl⟩
            rw [← h1a, ← h1b]
            refine ⟨(m.heap.alloc (.obj [])).2,
              by simp [jsTypeofObject, Heap.alloc],
              RegionExt.alloc (RegionExt.refl _) _⟩
        obtain ⟨h2, hts2, hre2⟩ := hts
        have hwreg := setWalk_region (Nat.le_refl m.heap.next)
          (s :: rest') (.addr m.heap.next) h2 hre2
        cases hw : setWalk (.addr m.heap.next) (s :: rest')
            (.addr m.heap.next) h2 with
        | error h3 =>
          right
          refine ⟨{ m with heap := h3 }, ?_, rfl, rfl, ?_⟩
          · simp only [setOnePair, hs, hcl, List.headD, List.tail, hts2, hw]
          · rw [hw] at hwreg
            exact hwreg
        | ok z =>
          obtain ⟨ptr, lastPc, h3⟩ := z
          have hre3 : RegionExt m.heap h3 := by
            rw [hw] at hwreg
            exact hwreg
          have hold : mget { m with heap := h3 } p = mget m p :=
            mget_ext hwf hre3 p
          have hguard : jsEqual eqFuel h3 (mget { m with heap := h3 } p) v'
              = true := by
            rw [hold,
              jsEqual_ext hwf.1 hre3 eqFuel (mget m p) v'
                (valDefined_mget hwf p) hv']
            exact heq
          left
          refine ⟨{ m with heap := h3 }, ?_, rfl, rfl, hre3⟩
          simp only [setOnePair, hs, hcl, List.headD, List.tail, hts2, hw]
          rw [if_pos hguard]

/-- C7: re-setting any path to a value deep-equal to the value currently
stored at that path is a true no-op: the attribute bag is not mutated, no
event fires (neither `change:<p>` nor the generic `change`), and every
heap cell that existed before the call is unchanged (the shallow clone
the code makes first is a fresh, outside-unreachable allocation). This
holds whether the call returns normally (the deep-equality guard skips
the pair) or — for paths of three or more segments over a `null`
intermediate — throws a `TypeError` before reaching any mutation. The
model's deep equality carries a fuel bound; two levels are needed so that
comparing a value with the clone of itself can follow one field
indirection, mirroring `_.isEqual`'s reference fast path. -/
theorem c7_deep_equal_reset_is_noop (eqFuel : Nat) (hf : 2 ≤ eqFuel)
    (m : Model) (hwf : Model.WF m) (p : String) (v' : JsVal)
    (hv' : valDefined m.heap v' = true) (options : Opts)
    (heq : jsEqual eqFuel m.heap (mget m p) v' = true) :
    (mset eqFuel m p v' options).state.attrs = m.attrs ∧
    (mset eqFuel m p v' options).state.events = m.events ∧
    RegionExt m.heap (mset eqFuel m p v' options).state.heap := by
  rcases setOnePair_skip eqFuel hf options
      (assocSet options "silent" (.bool true)) m hwf false p v' hv' heq with
    ⟨m', hok, ha, he, hre⟩ | ⟨m', hth, ha, he, hre⟩
  · simp only [mset, msetPairs, setPairsLoop, hok, SetOutcome.state,
      Bool.false_eq_true, if_false]
    exact ⟨ha, he, hre⟩
  · simp only [mset, msetPairs, setPairsLoop, hth, SetOutcome.state]
    exact ⟨ha, he, hre⟩

/-- The concrete model used by the C7 witness: `a ↦ { b: "x" }`. -/
def c7m : Model := ⟨⟨[(0, .obj [("b", .str "x")])], 1⟩, [("a", .addr 0)], []⟩

/-- Witness for C7 at a concrete model: re-setting `a.b` to the value it
already holds changes neither the bag nor the events nor any old cell. -/
theorem c7_deep_equal_reset_is_noop_witness :
    ((2 ≤ 5 ∧ Model.WF c7m) ∧ valDefined c7m.heap (JsVal.str "x") = true ∧
      jsEqual 5 c7m.heap (mget c7m "a.b") (JsVal.str "x") = true) ∧
    ((mset 5 c7m "a.b" (.str "x") []).state.attrs = c7m.attrs ∧
      (mset 5 c7m "a.b" (.str "x") []).state.events = c7m.events ∧
      RegionExt c7m.heap (mset 5 c7m "a.b" (.str "x") []).state.heap) :=
  ⟨⟨⟨by decide, by decide⟩, by decide, by decide⟩,
    c7_deep_equal_reset_is_noop 5 (by decide) c7m (by decide) "a.b"
      (.str "x") (by decide) [] (by decide)⟩

theorem getProp_after_setProp_same_key (h : Heap) (t : Addr) (k : String)
    (value : JsVal) (hk1 : ¬k = "length") (hk2 : jsToNat? k = none)
    {h' : Heap} (hsp : setProp h (.addr t) k value = .ok h')
    (hdef : (h.read t).isSome = true) :
    getProp h' (.addr t) k = .ok value := by
  obtain ⟨c, hc⟩ := Option.isSome_iff_exists.mp hdef
  cases c with
  | obj fields =>
    simp only [setProp, hc] at hsp
    obtain rfl : h.write t (.obj (fieldsSet fields k value)) = h' := by
      simpa using hsp
    simp only [getProp, Heap.read_write_self, fieldsGet_fieldsSet_self]
    rfl
  | arr elems props =>
    simp only [setProp, hc, if_neg hk1, hk2] at hsp
    obtain rfl : h.write t (.arr elems (fieldsSet props k value)) = h' := by
      simpa using hsp
    simp only [getProp, Heap.read_write_self, if_neg hk1, hk2,
      fieldsGet_fieldsSet_self]
    rfl

theorem setWalk_step {toSet : JsVal} {nextPc s' : String}
    {rest' : List String} {ptr : JsVal} {h : Heap} {tv : JsVal}
    (hg : getProp h toSet nextPc = .ok tv) :
    setWalk toSet (nextPc :: s' :: rest') ptr h
      = if jsTypeofObject tv = true then setWalk toSet (s' :: rest') tv h
        else
          match setProp (h.alloc (.obj [])).2 toSet nextPc
              (.addr (h.alloc (.obj [])).1) with
          | .error _ => .error (h.alloc (.obj [])).2
          | .ok h2 =>
            match getProp h2 toSet nextPc with
            | .error _ => .error h2
            | .ok ptr' => setWalk toSet (s' :: rest') ptr' h2 := by
  simp only [setWalk, hg]

theorem lookupStr_assocSet_self (l : List (String × JsVal)) (k : String)
    (v : JsVal) : lookupStr (assocSet l k v) k = some v := by
  rw [lookupStr_eq_fieldsGet, assocSet_eq_fieldsSet]
  exact fieldsGet_fieldsSet_self l k v

/-- C6 (amended): provided the current top-level value at `a` and the
existing value at `a.b` are not `null` (otherwise the walk throws a
`TypeError` before emitting anything — see the counterexample), and the
stored value is a real value of the model's heap, setting `a.b.c` to a
value not deep-equal to the current one appends exactly the event
`change:a.b.c` (carrying the new value and the caller-supplied options)
followed by one generic `change` event: no `change:a` and no
`change:a.b` is emitted even though those levels were structurally
replaced, and the flat set is performed silently. -/
theorem c6_set_nested_emits_exact_path_events (eqFuel : Nat) (m : Model)
    (hwf : Model.WF m) (value : JsVal) (options : Opts)
    (hvv : valDefined m.heap value = true)
    (hA : flatGet m "a" ≠ JsVal.null)
    (hB : getPropD m.heap (flatGet m "a") "b" ≠ JsVal.null)
    (hneq : jsEqual eqFuel m.heap (mget m "a.b.c") value = false) :
    (mset eqFuel m "a.b.c" value options).isOk = true ∧
    (mset eqFuel m "a.b.c" value options).state.events
      = m.events ++ [⟨"change:a.b.c", some value, options⟩,
          ⟨"change", none, options⟩] := by
  have hs : splitDots "a.b.c" = ["a", "b", "c"] := rfl
  rcases hcl : jsClone m.heap (flatGet m "a") with ⟨tlv, h1⟩
  have hre1 : RegionExt m.heap h1 := by
    have hx := regionExt_clone m.heap (flatGet m "a")
    rwa [hcl] at hx
  have hmain : ∃ h2 : Heap,
      (if jsTypeofObject tlv = true then (tlv, h1)
        else
          let z := h1.alloc (.obj [])
          (JsVal.addr z.1, z.2)) = (JsVal.addr m.heap.next, h2) ∧
      RegionExt m.heap h2 ∧ m.heap.next < h2.next ∧
      (h2.read m.heap.next).isSome = true ∧
      ∃ tv2, getProp h2 (.addr m.heap.next) "b" = .ok tv2 ∧
        tv2 ≠ JsVal.null := by
    cases hfg : flatGet m "a" with
    | null => exact absurd hfg hA
    | addr a =>
      have hdefa : (m.heap.read a).isSome = true := by
        have hv := valDefined_flatGet hwf "a"
        rw [hfg] at hv
        simpa [valDefined] using hv
      obtain ⟨c, hc⟩ := Option.isSome_iff_exists.mp hdefa
      cases c with
      | obj fields =>
        rw [hfg, jsClone_obj hc] at hcl
        have h1a : JsVal.addr m.heap.next = tlv := congrArg Prod.fst hcl
        have h1b : (m.heap.alloc (.obj fields)).2 = h1 :=
          congrArg Prod.snd hcl
        refine ⟨h1, ?_, hre1, ?_, ?_,
          (fieldsGet fields "b").getD .undef, ?_, ?_⟩
        · rw [← h1a]
          simp [jsTypeofObject]
        · rw [← h1b]
          simp [Heap.alloc]
        · rw [← h1b]
          simp [Heap.read_alloc_self]
        · rw [← h1b]
          simp only [getProp, Heap.read_alloc_self]
        · have hBc : getPropD m.heap (JsVal.addr a) "b"
              = (fieldsGet fields "b").getD .undef := by
            simp [getPropD, getProp, hc]
          rw [hfg, hBc] at hB
          exact hB
      | arr elems props =>
        rw [hfg, jsClone_arr hc] at hcl
        have h1a : JsVal.addr m.heap.next = tlv := congrArg Prod.fst hcl
        have h1b : (m.heap.alloc (.arr elems [])).2 = h1 :=
          congrArg Prod.snd hcl
        refine ⟨h1, ?_, hre1, ?_, ?_, .undef, ?_, by simp⟩
        · rw [← h1a]
          simp [jsTypeofObject]
        · rw [← h1b]
          simp [Heap.alloc]
        · rw [← h1b]
          simp [Heap.read_alloc_self]
        · rw [← h1b]
          simp only [getProp, Heap.read_alloc_self,
            if_neg (by decide : ¬("b" : String) = "length"),
            show jsToNat? "b" = none from by decide]
          simp [fieldsGet]
    | undef =>
      rw [hfg] at hcl
      simp only [jsClone] at hcl
      have h1a : JsVal.undef = tlv := congrArg Prod.fst hcl
      have h1b : m.heap = h1 := congrArg Prod.snd hcl
      rw [← h1a, ← h1b]
      refine ⟨(m.heap.alloc (.obj [])).2,
        by simp [jsTypeofObject, Heap.alloc],
        RegionExt.alloc (RegionExt.refl _) _,
        by simp [Heap.alloc], by simp [Heap.read_alloc_self],
        .undef, ?_, by simp⟩
      simp only [getProp, Heap.read_alloc_self]
      simp [fieldsGet]
    | bool b =>
      rw [hfg] at hcl
      simp only [jsClone] at hcl
      have h1a : JsVal.bool b = tlv := congrArg Prod.fst hcl
      have h1b : m.heap = h1 := congrArg Prod.snd hcl
      rw [← h1a, ← h1b]
      refine ⟨(m.heap.alloc (.obj [])).2,
        by simp [jsTypeofObject, Heap.alloc],
        RegionExt.alloc (RegionExt.refl _) _,
        by simp [Heap.alloc], by simp [Heap.read_alloc_self],
        .undef, ?_, by simp⟩
      simp only [getProp, Heap.read_alloc_self]
      simp [fieldsGet]
    | num n =>
      rw [hfg] at hcl
      simp only [jsClone] at hcl
      have h1a : JsVal.num n = tlv := congrArg Prod.fst hcl
      have h1b : m.heap = h1 := congrArg Prod.snd hcl
      rw [← h1a, ← h1b]
      refine ⟨(m.heap.alloc (.obj [])).2,
        by simp [jsTypeofObject, Heap.alloc],
        RegionExt.alloc (RegionExt.refl _) _,
        by simp [Heap.alloc], by simp [Heap.read_alloc_self],
        .undef, ?_, by simp⟩
      simp only [getProp, Heap.read_alloc_self]
      simp [fieldsGet]
    | str sv =>
      rw [hfg] at hcl
      simp only [jsClone] at hcl
      have h1a : JsVal.str sv = tlv := congrArg Prod.fst hcl
      have h1b : m.heap = h1 := congrArg Prod.snd hcl
      rw [← h1a, ← h1b]
      refine ⟨(m.heap.alloc (.obj [])).2,
        by simp [jsTypeofObject, Heap.alloc],
        RegionExt.alloc (RegionExt.refl _) _,
        by simp [Heap.alloc], by simp [Heap.read_alloc_self],
        .undef, ?_, by simp⟩
      simp only [getProp, Heap.read_alloc_self]
      simp [fieldsGet]
  obtain ⟨h2, hts2, hre2, hlt2, hdef2, tv2, hg2, htv2⟩ := hmain
  have hwalk : ∃ (pa : Addr) (h3 : Heap),
      setWalk (.addr m.heap.next) ["b", "c"] (.addr m.heap.next) h2
        = .ok (.addr pa, "c", h3) ∧ RegionExt m.heap h3 := by
    by_cases hty : jsTypeofObject tv2 = true
    · obtain ⟨pa, rfl⟩ : ∃ pa, tv2 = JsVal.addr pa := by
        cases tv2 with
        | null => exact absurd rfl htv2
        | addr pa => exact ⟨pa, rfl⟩
        | undef => simp [jsTypeofObject] at hty
        | bool b => simp [jsTypeofObject] at hty
        | num n => simp [jsTypeofObject] at hty
        | str s => simp [jsTypeofObject] at hty
      refine ⟨pa, h2, ?_, hre2⟩
      rw [setWalk_step hg2, if_pos hty]
      simp [setWalk]
    · obtain ⟨h2w, hsp, hnw, hlocw⟩ :=
        setProp_addr_spec (h2.alloc (.obj [])).2 m.heap.next "b"
          (.addr (h2.alloc (.obj [])).1)
      have hdefw : ((h2.alloc (.obj [])).2.read m.heap.next).isSome
          = true := by
        rw [Heap.read_alloc_ne _ _ (Nat.ne_of_lt hlt2)]
        exact hdef2
      have hrr := getProp_after_setProp_same_key _ _ _ _
        (by decide) (by decide) hsp hdefw
      refine ⟨(h2.alloc (.obj [])).1, h2w, ?_, ?_⟩
      · rw [setWalk_step hg2, if_neg hty]
        simp only [hsp, hrr, setWalk]
      · exact regionExt_of_local (RegionExt.alloc hre2 _)
          (Nat.le_refl _) hnw hlocw
  obtain ⟨pa, h3, hw, hre3⟩ := hwalk
  obtain ⟨h4, hsp4, hn4, hloc4⟩ := setProp_addr_spec h3 pa "c" value
  have hguard : jsEqual eqFuel h3 (mget { m with heap := h3 } "a.b.c")
      value = false := by
    rw [mget_ext hwf hre3,
      jsEqual_ext hwf.1 hre3 eqFuel _ _ (valDefined_mget hwf _) hvv]
    exact hneq
  have hnotguard : ¬(jsEqual eqFuel h3
      (mget { m with heap := h3 } "a.b.c") value = true) := by
    rw [hguard]
    simp
  have hsil : jsTruthy ((lookupStr (assocSet options "silent" (.bool true))
      "silent").getD .undef) = true := by
    rw [lookupStr_assocSet_self]
    rfl
  constructor
  · simp only [mset, msetPairs, setPairsLoop, setOnePair, hs, List.headD,
      List.tail, hcl, hts2, hw, if_neg hnotguard, hsp4, flatSet, hsil,
      if_true, trigger, SetOutcome.isOk]
  · simp only [mset, msetPairs, setPairsLoop, setOnePair, hs, List.headD,
      List.tail, hcl, hts2, hw, if_neg hnotguard, hsp4, flatSet, hsil,
      if_true, trigger, SetOutcome.state]
    simp

/-- The concrete model used by the C6 witness: `a ↦ { b: {} }`. -/
def c6m : Model :=
  ⟨⟨[(0, .obj [("b", .addr 1)]), (1, .obj [])], 2⟩, [("a", .addr 0)], []⟩

/-- Witness for the amended C6 at a concrete model: setting `a.b.c`
appends exactly `change:a.b.c` and `change`. -/
theorem c6_set_nested_emits_exact_path_events_witness :
    ((Model.WF c6m ∧ valDefined c6m.heap (JsVal.str "x") = true) ∧
      (flatGet c6m "a" ≠ JsVal.null ∧
        getPropD c6m.heap (flatGet c6m "a") "b" ≠ JsVal.null) ∧
      jsEqual 5 c6m.heap (mget c6m "a.b.c") (JsVal.str "x") = false) ∧
    ((mset 5 c6m "a.b.c" (.str "x") []).isOk = true ∧
      (mset 5 c6m "a.b.c" (.str "x") []).state.events
        = c6m.events ++ [⟨"change:a.b.c", some (JsVal.str "x"), []⟩,
            ⟨"change", none, []⟩]) :=
  ⟨⟨⟨by decide, by decide⟩, ⟨by decide, by decide⟩, by decide⟩,
    c6_set_nested_emits_exact_path_events 5 c6m (by decide) (.str "x") []
      (by decide) (by decide) (by decide) (by decide)⟩

/-- Heap reachability: the addresses reachable from a value by following
object fields and array elements (finitely many steps; well-defined also
on cyclic heaps). -/
inductive Reaches (h : Heap) : JsVal → Addr → Prop
  | here (a : Addr) : Reaches h (.addr a) a
  | step (a : Addr) (c : JsCell) (u : JsVal) (b : Addr) :
      h.read a = some c → u ∈ cellVals c → Reaches h u b →
      Reaches h (.addr a) b

theorem valDefined_alloc {h : Heap} {u : JsVal} (c : JsCell)
    (hu : valDefined h u = true) : valDefined (h.alloc c).2 u = true := by
  cases u with
  | addr b =>
    by_cases hb : b = h.next
    · subst hb
      simp [valDefined, Heap.read_alloc_self]
    · simpa [valDefined, Heap.read_alloc_ne h c hb] using hu
  | _ => rfl

theorem valDefined_write {h : Heap} {u : JsVal} (a : Addr) (c : JsCell)
    (hu : valDefined h u = true) : valDefined (h.write a c) u = true := by
  cases u with
  | addr b =>
    by_cases hb : b = a
    · subst hb
      simp [valDefined, Heap.read_write_self]
    · simpa [valDefined, Heap.read_write_ne h c hb] using hu
  | _ => rfl

theorem Heap.WF_alloc {h : Heap} (hwf : h.WF) (c : JsCell)
    (hvals : ∀ u ∈ cellVals c, valDefined h u = true)
    (hnd : cellKeysNodup c) : (h.alloc c).2.WF := by
  refine ⟨?_, ?_, ?_⟩
  · intro p hp
    rcases List.mem_cons.mp hp with hx | hx
    · subst hx
      exact Nat.lt_succ_self _
    · exact Nat.lt_succ_of_lt (hwf.1 p hx)
  · intro p hp u hu
    rcases List.mem_cons.mp hp with hx | hx
    · subst hx
      exact valDefined_alloc c (hvals u hu)
    · exact valDefined_alloc c (hwf.2.1 p hx u hu)
  · intro p hp
    rcases List.mem_cons.mp hp with hx | hx
    · subst hx
      exact hnd
    · exact hwf.2.2 p hx

theorem Heap.WF_write {h : Heap} (hwf : h.WF) {a : Addr} {c0 : JsCell}
    (ha : h.read a = some c0) (c : JsCell)
    (hvals : ∀ u ∈ cellVals c, valDefined h u = true)
    (hnd : cellKeysNodup c) : (h.write a c).WF := by
  refine ⟨?_, ?_, ?_⟩
  · intro p hp
    rcases List.mem_cons.mp hp with hx | hx
    · subst hx
      exact hwf.read_lt ha
    · exact hwf.1 p (List.mem_of_mem_eraseP hx)
  · intro p hp u hu
    rcases List.mem_cons.mp hp with hx | hx
    · subst hx
      exact valDefined_write a c (hvals u hu)
    · exact valDefined_write a c
        (hwf.2.1 p (List.mem_of_mem_eraseP hx) u hu)
  · intro p hp
    rcases List.mem_cons.mp hp with hx | hx
    · subst hx
      exact hnd
    · exact hwf.2.2 p (List.mem_of_mem_eraseP hx)

theorem lookupStr_assocSet_ne (l : List (String × JsVal)) {k i : String}
    (v : JsVal) (hne : i ≠ k) :
    lookupStr (assocSet l k v) i = lookupStr l i := by
  rw [lookupStr_eq_fieldsGet, assocSet_eq_fieldsSet,
    fieldsGet_fieldsSet_ne l v hne]

/-- Invariant of the decoder state relative to the heap boundary `n₀`
(addresses below `n₀` are the input region, addresses at or above it are
cells produced by the running decode) and the set `P` of result objects
still under construction (registered, not yet marked). -/
structure DecInv (n₀ : Addr) (P : Addr → Prop) (st : DecState) : Prop where
  wf : Heap.WF st.heap
  le : n₀ ≤ st.heap.next
  pc : ∀ a c, n₀ ≤ a → st.heap.read a = some c →
    ∀ b, (JsVal.addr b) ∈ cellVals c → n₀ ≤ b
  pm : ∀ a f, n₀ ≤ a → st.heap.read a = some (.obj f) →
    fieldsGet f MARKER = some (.bool true) ∨ P a
  fnd : ∀ i w, lookupStr st.found i = some w →
    ∃ b, w = JsVal.addr b ∧ n₀ ≤ b ∧ ∃ f, st.heap.read b = some (.obj f)
  inm : ∀ a f, a < n₀ → st.heap.read a = some (.obj f) →
    fieldsGet f MARKER = none
  oc : ∀ a c, a < n₀ → st.heap.read a = some c →
    ∀ b, (JsVal.addr b) ∈ cellVals c → b < n₀
  pp : ∀ a, P a → n₀ ≤ a ∧ ∃ f, st.heap.read a = some (.obj f)

/-- What one successful decoder step guarantees: the invariant is
maintained, allocation moves forward, every cell existing at entry is
untouched, and an address-valued output is a defined produced cell. -/
structure DecOut (n₀ : Addr) (P : Addr → Prop) (st st' : DecState)
    (r : JsVal) : Prop where
  inv : DecInv n₀ P st'
  mono : st.heap.next ≤ st'.heap.next
  pres : ∀ a, a < st.heap.next → st'.heap.read a = st.heap.read a
  out : ∀ b, r = JsVal.addr b → n₀ ≤ b ∧ (st'.heap.read b).isSome = true

theorem DecInv_mono_P {n₀ : Addr} {P Q : Addr → Prop} {st : DecState}
    (hinv : DecInv n₀ Q st) (hPQ : ∀ a, P a → Q a)
    (hQP : ∀ a f, st.heap.read a = some (.obj f) → n₀ ≤ a → Q a →
      fieldsGet f MARKER = some (.bool true) ∨ P a) :
    DecInv n₀ P st :=
  ⟨hinv.wf, hinv.le, hinv.pc,
    fun a f ha hr => (hinv.pm a f ha hr).elim Or.inl (hQP a f hr ha),
    hinv.fnd, hinv.inm, hinv.oc, fun a hPa => hinv.pp a (hPQ a hPa)⟩

/-- Writing one field into a produced object keeps the decoder invariant,
provided the value written is itself defined and produced-or-scalar. -/
theorem DecInv_setField {n₀ : Addr} {P : Addr → Prop} {st : DecState}
    (hinv : DecInv n₀ P st) {ra : Addr} (hra : n₀ ≤ ra)
    {f1 : List (String × JsVal)} (hf1 : st.heap.read ra = some (.obj f1))
    (k : String) (d : JsVal) (hd : valDefined st.heap d = true)
    (hdout : ∀ b, d = JsVal.addr b → n₀ ≤ b)
    (hobjP : fieldsGet (fieldsSet f1 k d) MARKER = some (.bool true) ∨ P ra) :
    DecInv n₀ P ⟨st.heap.write ra (.obj (fieldsSet f1 k d)), st.found⟩ := by
  refine ⟨?_, ?_, ?_, ?_, ?_, ?_, ?_, ?_⟩
  · exact Heap.WF_write hinv.wf hf1 _
      (by
        intro u hu
        rcases mem_vals_fieldsSet hu with hx | hx
        · exact hinv.wf.read_vals hf1 u hx
        · subst hx; exact hd)
      (fieldsSet_keys_nodup (hinv.wf.read_nodup hf1))
  · exact hinv.le
  · intro a c ha hr b hb
    by_cases hax : a = ra
    · subst hax
      rw [Heap.read_write_self] at hr
      obtain rfl : JsCell.obj (fieldsSet f1 k d) = c := by
        injection hr
      rcases mem_vals_fieldsSet hb with hx | hx
      · exact hinv.pc a (.obj f1) ha hf1 b hx
      · exact hdout b hx.symm
    · rw [Heap.read_write_ne _ _ hax] at hr
      exact hinv.pc a c ha hr b hb
  · intro a f ha hr
    by_cases hax : a = ra
    · subst hax
      rw [Heap.read_write_self] at hr
      obtain rfl : fieldsSet f1 k d = f := by
        injection hr with h
        injection h
      rcases hobjP with hx | hx
      · exact Or.inl hx
      · exact Or.inr hx
    · rw [Heap.read_write_ne _ _ hax] at hr
      exact hinv.pm a f ha hr
  · intro i w hw
    obtain ⟨b, rfl, hb, f, hfb⟩ := hinv.fnd i w hw
    by_cases hbx : b = ra
    · subst hbx
      exact ⟨b, rfl, hb, fieldsSet f1 k d, Heap.read_write_self _ _ _⟩
    · exact ⟨b, rfl, hb, f, by rw [Heap.read_write_ne _ _ hbx]; exact hfb⟩
  · intro a f ha hr
    have hax : a ≠ ra := Nat.ne_of_lt (lt_of_lt_of_le ha hra)
    rw [Heap.read_write_ne _ _ hax] at hr
    exact hinv.inm a f ha hr
  · intro a c ha hr b hb
    have hax : a ≠ ra := Nat.ne_of_lt (lt_of_lt_of_le ha hra)
    rw [Heap.read_write_ne _ _ hax] at hr
    exact hinv.oc a c ha hr b hb
  · intro a hPa
    obtain ⟨ha, f, hfa⟩ := hinv.pp a hPa
    by_cases hax : a = ra
    · subst hax
      exact ⟨ha, fieldsSet f1 k d, Heap.read_write_self _ _ _⟩
    · exact ⟨ha, f, by rw [Heap.read_write_ne _ _ hax]; exact hfa⟩

/-- The element loop of `decodeArray` maintains the decoder invariant,
leaves every pre-existing cell untouched and yields only defined,
produced (or scalar) decoded elements. -/
theorem decode_list_spec (fuel : Nat) (n₀ : Addr) (P : Addr → Prop)
    (hdec : ∀ v st r st', DecInv n₀ P st → (∀ a, v = JsVal.addr a → a < n₀) →
      doDecode fuel v st = some (r, st') → DecOut n₀ P st st' r) :
    ∀ (elems : List JsVal) (st st' : DecState) (ds : List JsVal),
      DecInv n₀ P st → (∀ v ∈ elems, ∀ a, v = JsVal.addr a → a < n₀) →
      decListWith (doDecode fuel) elems st = some (ds, st') →
      DecInv n₀ P st' ∧ st.heap.next ≤ st'.heap.next ∧
        (∀ a, a < st.heap.next → st'.heap.read a = st.heap.read a) ∧
        (∀ d ∈ ds, ∀ b, d = JsVal.addr b →
          n₀ ≤ b ∧ (st'.heap.read b).isSome = true) := by
  intro elems
  induction elems with
  | nil =>
    intro st st' ds hinv _ hrun
    simp only [decListWith, Option.some.injEq, Prod.mk.injEq] at hrun
    obtain ⟨rfl, rfl⟩ := hrun
    exact ⟨hinv, le_refl _, fun _ _ => rfl, by simp⟩
  | cons v rest ih =>
    intro st st' ds hinv hold hrun
    cases hd : doDecode fuel v st with
    | none => simp [decListWith, hd] at hrun
    | some pr =>
      obtain ⟨d, st1⟩ := pr
      cases hr : decListWith (doDecode fuel) rest st1 with
      | none => simp [decListWith, hd, hr] at hrun
      | some q =>
        obtain ⟨ds1, st2⟩ := q
        simp only [decListWith, hd, hr, Option.some.injEq,
          Prod.mk.injEq] at hrun
        obtain ⟨rfl, rfl⟩ := hrun
        have h1 := hdec v st d st1 hinv (hold v (by simp)) hd
        have h2 := ih st1 st2 ds1 h1.inv
          (fun u hu => hold u (List.mem_cons.mpr (Or.inr hu))) hr
        refine ⟨h2.1, le_trans h1.mono h2.2.1, ?_, ?_⟩
        · intro a ha
          rw [h2.2.2.1 a (lt_of_lt_of_le ha h1.mono), h1.pres a ha]
        · intro d0 hd0 b hb
          rcases List.mem_cons.mp hd0 with hx | hx
          · subst hx
            have ho := h1.out b hb
            refine ⟨ho.1, ?_⟩
            have hblt : b < st1.heap.next :=
              h1.inv.wf.read_lt_of_isSome ho.2
            rw [h2.2.2.1 b hblt]
            exact ho.2
          · exact h2.2.2.2 d0 hx b hb

/-- The field-copy loop of `decodeObject` maintains the decoder invariant
(with the result object `ra` pending in `P`) and touches no pre-existing
cell other than `ra` itself. -/
theorem decode_fields_spec (fuel : Nat) (n₀ : Addr) (P : Addr → Prop)
    (hdec : ∀ v st r st', DecInv n₀ P st → (∀ a, v = JsVal.addr a → a < n₀) →
      doDecode fuel v st = some (r, st') → DecOut n₀ P st st' r) :
    ∀ (fields : List (String × JsVal)) (ra : Addr) (st st' : DecState),
      DecInv n₀ P st → (∀ p ∈ fields, ∀ a, p.2 = JsVal.addr a → a < n₀) →
      n₀ ≤ ra → P ra →
      decFieldsWith (doDecode fuel) ra fields st = some st' →
      DecInv n₀ P st' ∧ st.heap.next ≤ st'.heap.next ∧
        (∀ a, a < st.heap.next → a ≠ ra →
          st'.heap.read a = st.heap.read a) := by
  intro fields
  induction fields with
  | nil =>
    intro ra st st' hinv _ _ _ hrun
    simp only [decFieldsWith, Option.some.injEq] at hrun
    subst hrun
    exact ⟨hinv, le_refl _, fun _ _ _ => rfl⟩
  | cons p rest ih =>
    obtain ⟨k, fv⟩ := p
    intro ra st st' hinv hold hra hPra hrun
    by_cases hk : k = "@id"
    · rw [show decFieldsWith (doDecode fuel) ra ((k, fv) :: rest) st
          = decFieldsWith (doDecode fuel) ra rest st by
        simp [decFieldsWith, hk]] at hrun
      exact ih ra st st' hinv
        (fun q hq => hold q (List.mem_cons.mpr (Or.inr hq))) hra hPra hrun
    · cases hd : doDecode fuel fv st with
      | none => simp [decFieldsWith, hk, hd] at hrun
      | some pr =>
        obtain ⟨d, st1⟩ := pr
        simp only [decFieldsWith, if_neg hk, hd] at hrun
        have h1 := hdec fv st d st1 hinv (hold (k, fv) (by simp)) hd
        obtain ⟨hra', f1, hf1⟩ := h1.inv.pp ra hPra
        have hset : heapSetField st1.heap ra k d
            = st1.heap.write ra (.obj (fieldsSet f1 k d)) := by
          simp [heapSetField, hf1]
        rw [hset] at hrun
        have hdd : valDefined st1.heap d = true := by
          cases d with
          | addr b => simpa [valDefined] using (h1.out b rfl).2
          | _ => rfl
        have hinv2 : DecInv n₀ P
            ⟨st1.heap.write ra (.obj (fieldsSet f1 k d)), st1.found⟩ :=
          DecInv_setField h1.inv hra' hf1 k d hdd
            (fun b hb => (h1.out b hb).1) (Or.inr hPra)
        have h2 := ih ra
          ⟨st1.heap.write ra (.obj (fieldsSet f1 k d)), st1.found⟩ st'
          hinv2 (fun q hq => hold q (List.mem_cons.mpr (Or.inr hq)))
          hra hPra hrun
        refine ⟨h2.1, ?_, ?_⟩
        · exact le_trans h1.mono h2.2.1
        · intro a ha hane
          rw [h2.2.2 a (lt_of_lt_of_le ha h1.mono) hane,
            Heap.read_write_ne _ _ hane, h1.pres a ha]

/-- Allocating one fresh cell (the result array of `decodeArray` or the
empty result object of `decodeObject`, possibly registering the latter in
`found`) preserves the decoder invariant, allowing the pending set to grow
from `P` to `Q` by exactly the fresh object. -/
theorem DecInv_alloc {n₀ : Addr} {P Q : Addr → Prop} {st : DecState}
    (fnd' : List (String × JsVal)) (hinv : DecInv n₀ P st) (c : JsCell)
    (hvals : ∀ u ∈ cellVals c, valDefined st.heap u = true)
    (hnd : cellKeysNodup c)
    (hout : ∀ b, (JsVal.addr b) ∈ cellVals c → n₀ ≤ b)
    (hPQ : ∀ a, P a → Q a)
    (hQP : ∀ a, Q a → P a ∨ (a = st.heap.next ∧ ∃ f, c = JsCell.obj f))
    (hobj : ∀ f, c = JsCell.obj f →
      fieldsGet f MARKER = some (JsVal.bool true) ∨ Q st.heap.next)
    (hfnd : ∀ i w, lookupStr fnd' i = some w →
      ∃ b, w = JsVal.addr b ∧
        ((n₀ ≤ b ∧ ∃ f, st.heap.read b = some (JsCell.obj f)) ∨
          (b = st.heap.next ∧ ∃ f, c = JsCell.obj f))) :
    DecInv n₀ Q ⟨(st.heap.alloc c).2, fnd'⟩ := by
  refine ⟨?_, ?_, ?_, ?_, ?_, ?_, ?_, ?_⟩
  · exact Heap.WF_alloc hinv.wf c hvals hnd
  · exact le_trans hinv.le (Nat.le_succ _)
  · intro a' c' ha' hr b hb
    by_cases hax : a' = st.heap.next
    · subst hax
      have hr' : (st.heap.alloc c).2.read st.heap.next = some c' := hr
      rw [Heap.read_alloc_self] at hr'
      obtain rfl : c = c' := by injection hr'
      exact hout b hb
    · have hr' : (st.heap.alloc c).2.read a' = some c' := hr
      rw [Heap.read_alloc_ne _ _ hax] at hr'
      exact hinv.pc a' c' ha' hr' b hb
  · intro a' f ha' hr
    by_cases hax : a' = st.heap.next
    · subst hax
      have hr' : (st.heap.alloc c).2.read st.heap.next = some (.obj f) := hr
      rw [Heap.read_alloc_self] at hr'
      obtain rfl : c = JsCell.obj f := by injection hr'
      exact hobj f rfl
    · have hr' : (st.heap.alloc c).2.read a' = some (.obj f) := hr
      rw [Heap.read_alloc_ne _ _ hax] at hr'
      rcases hinv.pm a' f ha' hr' with hm | hp
      · exact Or.inl hm
      · exact Or.inr (hPQ a' hp)
  · intro i w hw
    obtain ⟨b, hwb, hcase⟩ := hfnd i w hw
    rcases hcase with ⟨hb, f, hf⟩ | ⟨hbe, f, hcf⟩
    · refine ⟨b, hwb, hb, f, ?_⟩
      show (st.heap.alloc c).2.read b = some (.obj f)
      rw [Heap.read_alloc_ne _ _ (Nat.ne_of_lt (hinv.wf.read_lt hf))]
      exact hf
    · subst hbe
      refine ⟨st.heap.next, hwb, hinv.le, f, ?_⟩
      show (st.heap.alloc c).2.read st.heap.next = some (.obj f)
      rw [Heap.read_alloc_self, hcf]
  · intro a' f ha' hr
    have hax : a' ≠ st.heap.next := Nat.ne_of_lt (lt_of_lt_of_le ha' hinv.le)
    have hr' : (st.heap.alloc c).2.read a' = some (.obj f) := hr
    rw [Heap.read_alloc_ne _ _ hax] at hr'
    exact hinv.inm a' f ha' hr'
  · intro a' c' ha' hr b hb
    have hax : a' ≠ st.heap.next := Nat.ne_of_lt (lt_of_lt_of_le ha' hinv.le)
    have hr' : (st.heap.alloc c).2.read a' = some c' := hr
    rw [Heap.read_alloc_ne _ _ hax] at hr'
    exact hinv.oc a' c' ha' hr' b hb
  · intro a' hq
    rcases hQP a' hq with hp | ⟨hbe, f, hcf⟩
    · obtain ⟨ha', f, hf⟩ := hinv.pp a' hp
      refine ⟨ha', f, ?_⟩
      show (st.heap.alloc c).2.read a' = some (.obj f)
      rw [Heap.read_alloc_ne _ _ (Nat.ne_of_lt (hinv.wf.read_lt hf))]
      exact hf
    · subst hbe
      refine ⟨hinv.le, f, ?_⟩
      show (st.heap.alloc c).2.read st.heap.next = some (.obj f)
      rw [Heap.read_alloc_self, hcf]

/-- The registry update of `decodeObject` for a node carrying a truthy
`@id`: the result object (just allocated at `st.heap.next`) is registered
under the id, before the fields are decoded. -/
def decFound (st : DecState) (fields : List (String × JsVal)) :
    List (String × JsVal) :=
  let idv := (fieldsGet fields "@id").getD .undef
  if nullOrUndefined idv = false ∧ jsToString idv ≠ "" then
    assocSet st.found (jsToString idv) (.addr st.heap.next)
  else st.found

/-- The decoder invariant is maintained by every successful `doDecode`
call whose input value lives in the old region: the call only allocates
and fills fresh cells, never touches a pre-existing one, and returns
either a scalar or a defined produced address. -/
theorem decode_spec : ∀ (fuel : Nat) (P : Addr → Prop) (n₀ : Addr)
    (v : JsVal) (st st' : DecState) (r : JsVal),
    DecInv n₀ P st → (∀ b, v = JsVal.addr b → b < n₀) →
    doDecode fuel v st = some (r, st') → DecOut n₀ P st st' r := by
  intro fuel
  induction fuel with
  | zero =>
    intro P n₀ v st st' r _ _ hrun
    simp [doDecode] at hrun
  | succ fuel ih =>
    intro P n₀ v st st' r hinv hold hrun
    cases v with
    | undef =>
      simp only [doDecode, Option.some.injEq, Prod.mk.injEq] at hrun
      obtain ⟨rfl, rfl⟩ := hrun
      exact ⟨hinv, le_refl _, fun _ _ => rfl, fun b hb => JsVal.noConfusion hb⟩
    | null =>
      simp only [doDecode, Option.some.injEq, Prod.mk.injEq] at hrun
      obtain ⟨rfl, rfl⟩ := hrun
      exact ⟨hinv, le_refl _, fun _ _ => rfl, fun b hb => JsVal.noConfusion hb⟩
    | bool b0 =>
      simp only [doDecode, Option.some.injEq, Prod.mk.injEq] at hrun
      obtain ⟨rfl, rfl⟩ := hrun
      exact ⟨hinv, le_refl _, fun _ _ => rfl, fun b hb => JsVal.noConfusion hb⟩
    | num n0 =>
      simp only [doDecode, Option.some.injEq, Prod.mk.injEq] at hrun
      obtain ⟨rfl, rfl⟩ := hrun
      exact ⟨hinv, le_refl _, fun _ _ => rfl, fun b hb => JsVal.noConfusion hb⟩
    | str s0 =>
      simp only [doDecode, Option.some.injEq, Prod.mk.injEq] at hrun
      obtain ⟨rfl, rfl⟩ := hrun
      exact ⟨hinv, le_refl _, fun _ _ => rfl, fun b hb => JsVal.noConfusion hb⟩
    | addr a =>
      have ha : a < n₀ := hold a rfl
      cases hread : st.heap.read a with
      | none => simp [doDecode, hread] at hrun
      | some c =>
        cases c with
        | arr elems props =>
          simp only [doDecode, hread] at hrun
          cases hl : decListWith (doDecode fuel) elems st with
          | none => simp [hl] at hrun
          | some q =>
            obtain ⟨ds, st1⟩ := q
            simp only [hl] at hrun
            replace hrun : some (JsVal.addr st1.heap.next,
                (⟨(st1.heap.alloc (.arr ds [])).2, st1.found⟩ : DecState))
                  = some (r, st') := hrun
            simp only [Option.some.injEq, Prod.mk.injEq] at hrun
            obtain ⟨rfl, rfl⟩ := hrun
            have helems : ∀ u ∈ elems, ∀ b, u = JsVal.addr b → b < n₀ := by
              intro u hu b hb
              subst hb
              exact hinv.oc a (.arr elems props) ha hread b
                (List.mem_append_left _ hu)
            have hlist := decode_list_spec fuel n₀ P
              (fun v₀ st₀ r₀ st₀' hi ho hd => ih P n₀ v₀ st₀ st₀' r₀ hi ho hd)
              elems st st1 ds hinv helems hl
            obtain ⟨hinv1, hmono1, hpres1, hout1⟩ := hlist
            refine ⟨?_, ?_, ?_, ?_⟩
            · refine DecInv_alloc st1.found hinv1 (.arr ds []) ?_ ?_ ?_
                (fun _ hp => hp) (fun a' hq => Or.inl hq)
                (fun f hf => JsCell.noConfusion hf) ?_
              · intro u hu
                have hu' : u ∈ ds := by simpa [cellVals] using hu
                cases u with
                | addr b =>
                  have := (hout1 _ hu' b rfl).2
                  simpa [valDefined] using this
                | _ => rfl
              · show (([] : List (String × JsVal)).map Prod.fst).Nodup
                simp
              · intro b hb
                have hb' : JsVal.addr b ∈ ds := by simpa [cellVals] using hb
                exact (hout1 _ hb' b rfl).1
              · intro i w hw
                obtain ⟨b, hwb, hb, f, hf⟩ := hinv1.fnd i w hw
                exact ⟨b, hwb, Or.inl ⟨hb, f, hf⟩⟩
            · exact le_trans hmono1 (Nat.le_succ _)
            · intro a' ha'
              show (st1.heap.alloc (.arr ds [])).2.read a' = st.heap.read a'
              rw [Heap.read_alloc_ne _ _
                (Nat.ne_of_lt (lt_of_lt_of_le ha' hmono1))]
              exact hpres1 a' ha'
            · intro b hb
              obtain rfl : st1.heap.next = b := by injection hb
              refine ⟨hinv1.le, ?_⟩
              show ((st1.heap.alloc
                (.arr ds [])).2.read st1.heap.next).isSome = true
              rw [Heap.read_alloc_self]
              rfl
        | obj fields =>
          have hmark : fieldsGet fields MARKER = none :=
            hinv.inm a fields ha hread
          simp only [doDecode, hread] at hrun
          rw [if_neg (by simp [hmark])] at hrun
          cases hnu : nullOrUndefined ((fieldsGet fields "@ref").getD
              JsVal.undef) with
          | false =>
            rw [if_pos hnu] at hrun
            simp only [Option.some.injEq, Prod.mk.injEq] at hrun
            obtain ⟨rfl, rfl⟩ := hrun
            refine ⟨hinv, le_refl _, fun _ _ => rfl, ?_⟩
            intro b hb
            cases hlk : lookupStr st.found
                (jsToString ((fieldsGet fields "@ref").getD
                  JsVal.undef)) with
            | none =>
              rw [hlk] at hb
              exact absurd hb (by simp)
            | some w =>
              rw [hlk] at hb
              simp only [Option.getD_some] at hb
              obtain ⟨b', hwb, hb', f, hf⟩ := hinv.fnd _ w hlk
              rw [hb] at hwb
              obtain rfl : b = b' := by injection hwb
              exact ⟨hb', by simp [hf]⟩
          | true =>
            rw [if_neg (by simp [hnu])] at hrun
            replace hrun :
                (match decFieldsWith (doDecode fuel) st.heap.next fields
                    ⟨(st.heap.alloc (.obj [])).2, decFound st fields⟩ with
                  | none => none
                  | some st2 =>
                    some (JsVal.addr st.heap.next,
                      (⟨heapSetField st2.heap st.heap.next MARKER
                          (.bool true), st2.found⟩ : DecState)))
                  = some (r, st') := hrun
            cases hfl : decFieldsWith (doDecode fuel) st.heap.next fields
                ⟨(st.heap.alloc (.obj [])).2, decFound st fields⟩ with
            | none => simp [hfl] at hrun
            | some st2 =>
              simp only [hfl] at hrun
              simp only [Option.some.injEq, Prod.mk.injEq] at hrun
              obtain ⟨rfl, rfl⟩ := hrun
              have hfnd1 : ∀ i w,
                  lookupStr (decFound st fields) i = some w →
                  ∃ b, w = JsVal.addr b ∧
                    ((n₀ ≤ b ∧ ∃ f, st.heap.read b = some (JsCell.obj f)) ∨
                      (b = st.heap.next ∧
                        ∃ f, (JsCell.obj []) = JsCell.obj f)) := by
                intro i w hw
                by_cases hid : nullOrUndefined ((fieldsGet fields
                      "@id").getD JsVal.undef) = false
                    ∧ jsToString ((fieldsGet fields "@id").getD
                      JsVal.undef) ≠ ""
                · rw [show decFound st fields
                      = assocSet st.found
                        (jsToString ((fieldsGet fields "@id").getD
                          JsVal.undef))
                        (JsVal.addr st.heap.next) from by
                    simp only [decFound]
                    rw [if_pos hid]] at hw
                  by_cases hik : i = jsToString ((fieldsGet fields
                      "@id").getD JsVal.undef)
                  · subst hik
                    rw [lookupStr_assocSet_self] at hw
                    obtain rfl : JsVal.addr st.heap.next = w := by
                      injection hw
                    exact ⟨st.heap.next, rfl, Or.inr ⟨rfl, [], rfl⟩⟩
                  · rw [lookupStr_assocSet_ne _ _ hik] at hw
                    obtain ⟨b, hwb, hb, f, hf⟩ := hinv.fnd i w hw
                    exact ⟨b, hwb, Or.inl ⟨hb, f, hf⟩⟩
                · rw [show decFound st fields = st.found from by
                    simp only [decFound]
                    rw [if_neg hid]] at hw
                  obtain ⟨b, hwb, hb, f, hf⟩ := hinv.fnd i w hw
                  exact ⟨b, hwb, Or.inl ⟨hb, f, hf⟩⟩
              have hinv1 : DecInv n₀ (fun x => P x ∨ x = st.heap.next)
                  ⟨(st.heap.alloc (.obj [])).2, decFound st fields⟩ := by
                refine DecInv_alloc (decFound st fields) hinv (.obj [])
                  ?_ ?_ ?_ (fun a' hp => Or.inl hp) ?_
                  (fun f _ => Or.inr (Or.inr rfl)) hfnd1
                · intro u hu
                  simp [cellVals] at hu
                · show (([] : List (String × JsVal)).map Prod.fst).Nodup
                  simp
                · intro b hb
                  simp [cellVals] at hb
                · intro a' hq
                  rcases hq with hp | he
                  · exact Or.inl hp
                  · exact Or.inr ⟨he, [], rfl⟩
              have hflds : ∀ p ∈ fields, ∀ b, p.2 = JsVal.addr b →
                  b < n₀ := by
                intro p hp b hb
                refine hinv.oc a (.obj fields) ha hread b ?_
                show JsVal.addr b ∈ fields.map Prod.snd
                exact List.mem_map.mpr ⟨p, hp, by rw [hb]⟩
              have hspec := decode_fields_spec fuel n₀
                (fun x => P x ∨ x = st.heap.next)
                (fun v₀ st₀ r₀ st₀' hi ho hd =>
                  ih _ n₀ v₀ st₀ st₀' r₀ hi ho hd)
                fields st.heap.next
                ⟨(st.heap.alloc (.obj [])).2, decFound st fields⟩ st2
                hinv1 hflds hinv.le (Or.inr rfl) hfl
              obtain ⟨hinv2, hmono2, hpres2⟩ := hspec
              obtain ⟨hra2, f2, hf2⟩ := hinv2.pp st.heap.next (Or.inr rfl)
              have hset : heapSetField st2.heap st.heap.next MARKER
                  (.bool true)
                  = st2.heap.write st.heap.next
                      (.obj (fieldsSet f2 MARKER (.bool true))) := by
                simp [heapSetField, hf2]
              have hinv3 : DecInv n₀ (fun x => P x ∨ x = st.heap.next)
                  ⟨st2.heap.write st.heap.next
                    (.obj (fieldsSet f2 MARKER (.bool true))),
                      st2.found⟩ :=
                DecInv_setField hinv2 hra2 hf2 MARKER (.bool true) rfl
                  (fun b hb => JsVal.noConfusion hb)
                  (Or.inl (fieldsGet_fieldsSet_self f2 MARKER (.bool true)))
              have hinv4 : DecInv n₀ P
                  ⟨st2.heap.write st.heap.next
                    (.obj (fieldsSet f2 MARKER (.bool true))),
                      st2.found⟩ := by
                refine DecInv_mono_P hinv3 (fun a' hp => Or.inl hp) ?_
                intro a' f hr hn hq
                rcases hq with hp | he
                · exact Or.inr hp
                · subst he
                  have hr' : (st2.heap.write st.heap.next
                      (.obj (fieldsSet f2 MARKER
                        (.bool true)))).read st.heap.next
                      = some (.obj f) := hr
                  rw [Heap.read_write_self] at hr'
                  obtain rfl : fieldsSet f2 MARKER (.bool true) = f := by
                    injection hr' with h0
                    injection h0
                  exact Or.inl (fieldsGet_fieldsSet_self _ _ _)
              rw [hset]
              refine ⟨hinv4, ?_, ?_, ?_⟩
              · exact le_trans (Nat.le_succ st.heap.next) hmono2
              · intro a' ha'
                have hane : a' ≠ st.heap.next := Nat.ne_of_lt ha'
                show (st2.heap.write st.heap.next
                    (.obj (fieldsSet f2 MARKER (.bool true)))).read a'
                    = st.heap.read a'
                rw [Heap.read_write_ne _ _ hane]
                have h2 := hpres2 a' (lt_of_lt_of_le ha'
                  (Nat.le_succ _)) hane
                rw [h2]
                show (st.heap.alloc (.obj [])).2.read a' = st.heap.read a'
                exact Heap.read_alloc_ne st.heap _ hane
              · intro b hb
                obtain rfl : st.heap.next = b := by injection hb
                refine ⟨hinv.le, ?_⟩
                show ((st2.heap.write st.heap.next
                  (.obj (fieldsSet f2 MARKER
                    (.bool true)))).read st.heap.next).isSome = true
                rw [Heap.read_write_self]
                rfl

/-- C10: for an input tree (heap) with no pre-existing marker field on any
object, every object reachable from decode's output carries the ordinary
enumerable field `__jsogObjectDecoded` with value `true`, so its field
list differs from the field list of every (marker-free) input object. -/
theorem c10_every_decoded_object_carries_marker (fuel : Nat) (h : Heap)
    (v r : JsVal) (h' : Heap) (hwf : Heap.WF h)
    (hv : ∀ b, v = JsVal.addr b → (h.read b).isSome = true)
    (hnm : ∀ p ∈ h.cells, ∀ f, p.2 = JsCell.obj f →
      fieldsGet f MARKER = none)
    (hdec : jsogDecode fuel h v = some (r, h')) :
    ∀ a f, Reaches h' r a → h'.read a = some (JsCell.obj f) →
      fieldsGet f MARKER = some (JsVal.bool true) ∧
        ∀ p ∈ h.cells, ∀ g, p.2 = JsCell.obj g → g ≠ f := by
  cases hd : doDecode fuel v ⟨h, []⟩ with
  | none => simp [jsogDecode, hd] at hdec
  | some pr =>
    obtain ⟨r₀, st'⟩ := pr
    have hdec' : some (r₀, st'.heap) = some (r, h') := by
      rw [← hdec]
      simp [jsogDecode, hd]
    simp only [Option.some.injEq, Prod.mk.injEq] at hdec'
    obtain ⟨rfl, rfl⟩ := hdec'
    have hinv0 : DecInv h.next (fun _ => False) ⟨h, []⟩ := by
      refine ⟨hwf, le_refl _, ?_, ?_, ?_, ?_, ?_, ?_⟩
      · intro a c ha hr
        have hr' : h.read a = some c := hr
        rw [Heap.read_none_of_le hwf ha] at hr'
        exact Option.noConfusion hr'
      · intro a f ha hr
        have hr' : h.read a = some (.obj f) := hr
        rw [Heap.read_none_of_le hwf ha] at hr'
        exact Option.noConfusion hr'
      · intro i w hw
        simp [lookupStr] at hw
      · intro a f _ hr
        exact hnm (a, .obj f) (Heap.read_mem hr) f rfl
      · intro a c _ hr b hb
        have hvd := hwf.read_vals hr _ hb
        exact hwf.read_lt_of_isSome (by simpa [valDefined] using hvd)
      · intro a hfalse
        exact hfalse.elim
    have hout := decode_spec fuel (fun _ => False) h.next v ⟨h, []⟩ st' r₀
      hinv0 (fun b hb => hwf.read_lt_of_isSome (hv b hb)) hd
    have hgood : ∀ u b, Reaches st'.heap u b →
        (∀ b', u = JsVal.addr b' →
          h.next ≤ b' ∧ (st'.heap.read b').isSome = true) →
        h.next ≤ b ∧ (st'.heap.read b).isSome = true := by
      intro u b hrch
      induction hrch with
      | here a =>
        intro hg
        exact hg a rfl
      | step a c u' b' hread hu hrch ih =>
        intro hg
        have ha := hg a rfl
        apply ih
        intro b'' hb''
        refine ⟨?_, ?_⟩
        · refine hout.inv.pc a c ha.1 hread b'' ?_
          rw [← hb'']
          exact hu
        · have hvd := hout.inv.wf.read_vals hread u' hu
          rw [hb''] at hvd
          simpa [valDefined] using hvd
    intro a f hrch hra
    have hga := hgood r₀ a hrch (fun b' hb' => hout.out b' hb')
    rcases hout.inv.pm a f hga.1 hra with hm | hfalse
    · refine ⟨hm, ?_⟩
      intro p hp g hg heq
      have hn := hnm p hp g hg
      rw [heq, hm] at hn
      exact Option.noConfusion hn
    · exact hfalse.elim

/-- Concrete input heap for the C10 witness: one marker-free object
`{ name: "x" }` at address 0. -/
def c10h : Heap := ⟨[(0, .obj [("name", .str "x")])], 1⟩

/-- The heap decode produces from `c10h`: the fresh result object at
address 1 carries the `name` field and the marker. -/
def c10res : Heap :=
  ⟨[(1, .obj [("name", .str "x"), (MARKER, .bool true)]),
    (0, .obj [("name", .str "x")])], 2⟩

theorem c10_every_decoded_object_carries_marker_witness :
    (Heap.WF c10h ∧
      (∀ b, JsVal.addr 0 = JsVal.addr b →
        (c10h.read b).isSome = true) ∧
      (∀ p ∈ c10h.cells, ∀ f, p.2 = JsCell.obj f →
        fieldsGet f MARKER = none) ∧
      jsogDecode 3 c10h (JsVal.addr 0) = some (JsVal.addr 1, c10res)) ∧
    (fieldsGet [("name", JsVal.str "x"), (MARKER, JsVal.bool true)] MARKER
        = some (JsVal.bool true) ∧
      ∀ p ∈ c10h.cells, ∀ g, p.2 = JsCell.obj g →
        g ≠ [("name", JsVal.str "x"), (MARKER, JsVal.bool true)]) :=
  ⟨⟨by decide,
    by
      intro b hb
      obtain rfl : 0 = b := by injection hb
      decide,
    by
      intro p hp f hf
      simp only [c10h, List.mem_singleton] at hp
      subst hp
      obtain rfl : [("name", JsVal.str "x")] = f := by injection hf
      decide, by decide⟩,
    c10_every_decoded_object_carries_marker 3 c10h (JsVal.addr 0)
      (JsVal.addr 1) c10res (by decide)
      (by
        intro b hb
        obtain rfl : 0 = b := by injection hb
        decide)
      (by
      intro p hp f hf
      simp only [c10h, List.mem_singleton] at hp
      subst hp
      obtain rfl : [("name", JsVal.str "x")] = f := by injection hf
      decide) (by decide) 1
      [("name", JsVal.str "x"), (MARKER, JsVal.bool true)]
      (Reaches.here 1) (by decide)⟩
